import Mathlib

/-!
Verification of the identifier-resolution stage (`resolve.rs`) of the qsharp
compiler front end: the `resolve` shadowing algorithm, the `Resolver` tree
walk, and the `GlobalTable` builder, shallowly embedded in Lean.

Rust `HashMap`s are embedded as association lists (`alookup` is `get`,
`ainsert` is insert-with-overwrite); the order of an association list models
the otherwise unspecified iteration order of the hash map.  Rust panics
(`assert!`, `expect`, out-of-bounds indexing) are modelled by `Option`
(`none`) or by a dedicated `panic` outcome.
-/

namespace QscResolve

/-- Syntax-node identifier (`qsc_ast::ast::NodeId`). -/
abbrev NodeId := Nat

/-- Link-order index of a compiled package (`crate::compile::PackageId`). -/
abbrev PackageId := Nat

/-- `PackageSrc`: origin of a definition — the local package or an external
linked package. -/
inductive PackageSrc where
  | Local : PackageSrc
  | Extern (id : PackageId) : PackageSrc
deriving DecidableEq, Repr

/-- `DefId`: identity of a declaration, a pair of origin and declaring node. -/
structure DefId where
  package : PackageSrc
  node : NodeId
deriving DecidableEq, Repr

/-- `Span`: a source range; ordered lexicographically by `(lo, hi)` as Rust's
derived `Ord` does. -/
structure Span where
  lo : Nat
  hi : Nat
deriving DecidableEq, Repr

instance : LE Span :=
  ⟨fun a b => a.lo < b.lo ∨ (a.lo = b.lo ∧ a.hi ≤ b.hi)⟩

theorem Span.le_def (a b : Span) :
    a ≤ b ↔ a.lo < b.lo ∨ (a.lo = b.lo ∧ a.hi ≤ b.hi) := Iff.rfl

instance : DecidableRel (fun (a b : Span) => a ≤ b) := fun a b =>
  decidable_of_iff _ (Span.le_def a b).symm

instance : IsTotal Span (· ≤ ·) := by
  refine ⟨fun a b => ?_⟩
  rw [Span.le_def, Span.le_def]
  omega

instance : IsTrans Span (· ≤ ·) := by
  refine ⟨fun a b c hab hbc => ?_⟩
  rw [Span.le_def] at *
  omega

instance : IsAntisymm Span (· ≤ ·) := by
  refine ⟨fun a b hab hba => ?_⟩
  obtain ⟨alo, ahi⟩ := a
  obtain ⟨blo, bhi⟩ := b
  simp only [Span.le_def, Span.mk.injEq] at *
  omega

instance : IsRefl Span (· ≤ ·) := by
  refine ⟨fun a => ?_⟩
  rw [Span.le_def]
  omega

/-- An identifier node (`qsc_ast::ast::Ident`): node id, span, text.
Modelled from the spec: every name-bearing node carries a stable
process-unique identifier plus its source span and text. -/
structure Ident where
  id : NodeId
  span : Span
  name : String
deriving DecidableEq, Repr

/-- A path occurrence (`qsc_ast::ast::Path`): an optional namespace qualifier
and a trailing simple name.  Modelled from the spec: a path occurrence is an
optional namespace-qualifier identifier plus a simple trailing identifier,
with a span covering the whole occurrence. -/
structure Path where
  id : NodeId
  span : Span
  ns : Option Ident
  name : Ident
deriving DecidableEq, Repr

/-- `path.namespace.as_ref().map_or("", |i| &i.name)`. -/
def pathNs (path : Path) : String :=
  match path.ns with
  | some i => i.name
  | none => ""

/-- Association-list lookup, the embedding of `HashMap::get`. -/
def alookup {α β : Type} [DecidableEq α] : List (α × β) → α → Option β
  | [], _ => none
  | (k, v) :: rest, a => if k = a then some v else alookup rest a

/-- Association-list insert with overwrite, the embedding of
`HashMap::insert` (a fresh key is appended at the end). -/
def ainsert {α β : Type} [DecidableEq α] : List (α × β) → α → β → List (α × β)
  | [], a, b => [(a, b)]
  | (k, v) :: rest, a, b =>
    if k = a then (a, b) :: rest else (k, v) :: ainsert rest a b

/-- The two-level symbol tables `tys` / `terms`: namespace name → simple
name → `DefId`. -/
abbrev Globals := List (String × List (String × DefId))

/-- The open table: alias (`""` = unaliased) → opened namespace → span of
the `open` directive. -/
abbrev Opens := List (String × List (String × Span))

/-- One lexical scope: simple name → `DefId`. -/
abbrev Scope := List (String × DefId)

/-- The lexical scope stack.  The Rust `Vec` keeps the innermost scope last
and searches it with `iter().rev()`; we keep the innermost scope FIRST, so
pushing is `cons` and the search runs front to back. -/
abbrev LocalsStack := List Scope

/-- `globals.get(ns).and_then(|env| env.get(name))`. -/
def gget (globals : Globals) (nsp name : String) : Option DefId :=
  (alookup globals nsp).bind fun env => alookup env name

/-- `locals.iter().rev().find_map(|env| env.get(name))` (innermost first in
our representation). -/
def findLocal (locals : LocalsStack) (name : String) : Option DefId :=
  locals.findSome? fun env => alookup env name

/-- The two resolution error kinds of `resolve.rs`. -/
inductive ResError where
  | NotFound (name : String) (span : Span)
  | Ambiguous (name : String) (span : Span) (s1 : Span) (s2 : Span)
deriving DecidableEq, Repr

/-- Outcome of `resolve`: `Ok`, `Err`, or a Rust panic (the prelude
consistency `assert!`, or out-of-bounds indexing). -/
inductive ResolveOutcome where
  | ok (id : DefId)
  | err (e : ResError)
  | panic
deriving DecidableEq, Repr

/-- The fixed `PRELUDE` list of implicitly opened namespaces. -/
def PRELUDE : List String :=
  ["Microsoft.Quantum.Canon", "Microsoft.Quantum.Core", "Microsoft.Quantum.Intrinsic"]

/-- `single`: the sole element of an iterator, if there is exactly one. -/
def single {α : Type} : List α → Option α
  | [x] => some x
  | _ => none

/-- One step of the `resolve_explicit_opens` loop: if the opened namespace
defines the name, record `candidates.insert(id, span)`. -/
def reoStep (globals : Globals) (name : String)
    (candidates : List (DefId × Span)) (nsSpan : String × Span) :
    List (DefId × Span) :=
  match gget globals nsSpan.1 name with
  | some id => ainsert candidates id nsSpan.2
  | none => candidates

/-- `resolve_explicit_opens`: fold over the (hash-iteration-ordered) list of
opened namespaces for one alias, collecting `DefId → Span` candidates with
insert-overwrite, exactly as the Rust `HashMap<DefId, Span>` does. -/
def resolveExplicitOpens (globals : Globals) (namespaces : List (String × Span))
    (name : String) : List (DefId × Span) :=
  namespaces.foldl (reoStep globals name) []

/-- The per-alias contributions of an open list: every `(namespace, span)`
entry whose namespace defines the name, tagged with the `DefId` it supplies. -/
def contribs (globals : Globals) (namespaces : List (String × Span))
    (name : String) : List (DefId × Span) :=
  namespaces.filterMap fun nsSpan =>
    (gget globals nsSpan.1 name).map fun id => (id, nsSpan.2)

/-- `resolve_implicit_opens`: collect the set of distinct `DefId`s the
prelude namespaces give the name (the Rust `HashSet` is embedded as a
duplicate-free list built in `PRELUDE` order). -/
def resolveImplicitOpens (globals : Globals) (namespaces : List String)
    (name : String) : List DefId :=
  namespaces.foldl
    (fun candidates nsp =>
      match gget globals nsp name with
      | some id => if id ∈ candidates then candidates else candidates ++ [id]
      | none => candidates)
    []

/-- The tail of `resolve` after the ambiguity count is known: the
`open_candidates.len() > 1` check, `spans.sort()`, and the
`single`-or-`NotFound` fallback.  `spans[0]`/`spans[1]` indexing out of
bounds is a panic (provably unreachable). -/
def resolveFinal (openCandidates : List (DefId × Span)) (name : String)
    (span : Span) : ResolveOutcome :=
  if openCandidates.length > 1 then
    match List.insertionSort (fun a b : Span => a ≤ b) (openCandidates.map Prod.snd) with
    | s1 :: s2 :: _ => .err (.Ambiguous name span s1 s2)
    | _ => .panic
  else
    match single (openCandidates.map Prod.fst) with
    | some id => .ok id
    | none => .err (.NotFound name span)

/-- The `if open_candidates.is_empty()` unopened-global last resort of
`resolve`, falling through to `resolveFinal`. -/
def resolveUnopened (globals : Globals) (openCandidates : List (DefId × Span))
    (name nsp : String) (span : Span) : ResolveOutcome :=
  if openCandidates = [] then
    match gget globals nsp name with
    | some id => .ok id
    | none => resolveFinal openCandidates name span
  else resolveFinal openCandidates name span

/-- The lower tiers of `resolve` once the open candidates are known: the
prelude check (with its `assert!`), then `resolveUnopened`. -/
def resolveRest (globals : Globals) (openCandidates : List (DefId × Span))
    (name nsp : String) (span : Span) : ResolveOutcome :=
  if openCandidates = [] ∧ nsp = "" then
    let candidates := resolveImplicitOpens globals PRELUDE name
    if candidates.length ≤ 1 then
      match single candidates with
      | some id => .ok id
      | none => resolveUnopened globals openCandidates name nsp span
    else .panic
  else resolveUnopened globals openCandidates name nsp span

/-- `resolve`: the five-tier shadowing algorithm of `resolve.rs`
(locals, parent namespace, explicit opens, prelude, unopened globals). -/
def resolve (globals : Globals) (opens : Opens) (parent : String)
    (locals : LocalsStack) (path : Path) : ResolveOutcome :=
  let name := path.name.name
  let nsp := pathNs path
  let openCandidates :=
    match alookup opens nsp with
    | some openNamespaces => resolveExplicitOpens globals openNamespaces name
    | none => []
  if nsp = "" then
    match findLocal locals name with
    | some id => .ok id
    | none =>
      match gget globals parent name with
      | some id => .ok id
      | none => resolveRest globals openCandidates name nsp path.span
  else resolveRest globals openCandidates name nsp path.span

/-- The mutable state of `Resolver` (minus the borrowed lifetimes):
resolution map, the two symbol tables, the open table, the current
namespace, the lexical scope stack, and the error accumulator. -/
structure RState where
  resolutions : List (NodeId × DefId)
  tys : Globals
  terms : Globals
  opens : Opens
  curNs : String
  locals : LocalsStack
  errors : List ResError
deriving DecidableEq, Repr

/-- `Resolver::resolve_term`: resolve in term position, recording the
resolution or the error; a panic aborts the walk. -/
def resolveTermSt (s : RState) (path : Path) : Option RState :=
  match resolve s.terms s.opens s.curNs s.locals path with
  | .ok id => some {s with resolutions := ainsert s.resolutions path.id id}
  | .err e => some {s with errors := s.errors ++ [e]}
  | .panic => none

/-- `Resolver::resolve_ty`: resolve in type position — note the empty
locals slice `&[]` passed to `resolve`. -/
def resolveTySt (s : RState) (path : Path) : Option RState :=
  match resolve s.tys s.opens s.curNs [] path with
  | .ok id => some {s with resolutions := ainsert s.resolutions path.id id}
  | .err e => some {s with errors := s.errors ++ [e]}
  | .panic => none

/-- Types (`qsc_ast::ast::TyKind`), the fragment the resolver distinguishes:
a path type plus structural children.  Modelled from the spec: the resolver
consumes type nodes that are either a path reference or carry child types. -/
inductive Ty where
  | pathT (p : Path)
  | tupleT (ts : List Ty)
  | parenT (t : Ty)
  | prim
  | hole

/-- Patterns (`qsc_ast::ast::PatKind`): bind, discard, elided, paren,
tuple.  Modelled from the spec: a pattern is one of bind (name, optional
type annotation), discard (optional type annotation), elided, parenthesized
sub-pattern, or tuple of sub-patterns. -/
inductive Pat where
  | bind (name : Ident) (ty : Option Ty)
  | discard (ty : Option Ty)
  | elided
  | parenP (p : Pat)
  | tupleP (ps : List Pat)

mutual

/-- `Resolver::visit_ty`: resolve `TyKind::Path` in type position, walk
children otherwise. -/
def visitTy (s : RState) : Ty → Option RState
  | .pathT p => resolveTySt s p
  | .tupleT ts => visitTys s ts
  | .parenT t => visitTy s t
  | .prim => some s
  | .hole => some s

def visitTys (s : RState) : List Ty → Option RState
  | [] => some s
  | t :: rest =>
    match visitTy s t with
    | none => none
    | some s1 => visitTys s1 rest

end

mutual

/-- The default pattern walk (`visit::walk_pat`): visit the type
annotations inside a pattern.  Modelled from the spec: type-annotation
expressions inside patterns are resolved in type position. -/
def visitPat (s : RState) : Pat → Option RState
  | .bind _ (some t) => visitTy s t
  | .bind _ none => some s
  | .discard (some t) => visitTy s t
  | .discard none => some s
  | .elided => some s
  | .parenP p => visitPat s p
  | .tupleP ps => visitPats s ps

def visitPats (s : RState) : List Pat → Option RState
  | [] => some s
  | p :: rest =>
    match visitPat s p with
    | none => none
    | some s1 => visitPats s1 rest

end

mutual

/-- `Resolver::bind`: insert every `Bind` leaf of a pattern into the
innermost scope (panic — `none` — if the scope stack is empty, mirroring
`locals.last_mut().expect(..)`). -/
def bindPat (s : RState) : Pat → Option RState
  | .bind name _ =>
    match s.locals with
    | [] => none
    | env :: rest =>
      some {s with
        resolutions := ainsert s.resolutions name.id ⟨PackageSrc.Local, name.id⟩,
        locals := ainsert env name.name ⟨PackageSrc.Local, name.id⟩ :: rest}
  | .discard _ => some s
  | .elided => some s
  | .parenP p => bindPat s p
  | .tupleP ps => bindPats s ps

def bindPats (s : RState) : List Pat → Option RState
  | [] => some s
  | p :: rest =>
    match bindPat s p with
    | none => none
    | some s1 => bindPats s1 rest

end

mutual

/-- Expressions (`qsc_ast::ast::ExprKind`): the variants the resolver
treats specially (`For`, `Repeat`, `Lambda`, `Path`) plus structural ones.
Modelled from the spec: all remaining expression kinds get the default
walk-children behavior. -/
inductive Expr where
  | lit
  | tuple (es : List Expr)
  | path (p : Path)
  | forE (pat : Pat) (iter : Expr) (body : Block)
  | repeatE (body : Block) (cond : Expr) (fixup : Option Block)
  | lambda (input : Pat) (output : Expr)
  | blockE (b : Block)

/-- Qubit initializers (`qsc_ast::ast::QubitInitKind`). -/
inductive QubitInit where
  | singleQI (e : Expr)
  | tupleQI (qis : List QubitInit)

/-- Statements (`qsc_ast::ast::StmtKind`); the mutability and qubit-source
tags are omitted because the resolver matches them with `_`. -/
inductive Stmt where
  | empty
  | exprS (e : Expr)
  | semi (e : Expr)
  | localS (pat : Pat) (init : Expr)
  | qubit (pat : Pat) (init : QubitInit) (blk : Option Block)

/-- A block: a sequence of statements. -/
inductive Block where
  | mk (stmts : List Stmt)

end

/-- The statements of a block. -/
def Block.stmts : Block → List Stmt
  | .mk stmts => stmts

/-- `with_scope` entry half: push a fresh empty scope. -/
def pushScope (s : RState) : RState := {s with locals := [] :: s.locals}

/-- `with_scope` exit half: pop the innermost scope
(`self.locals.pop().expect("scope symmetry should be preserved")`). -/
def popScope (s : RState) : Option RState :=
  match s.locals with
  | [] => none
  | _ :: rest => some {s with locals := rest}

mutual

/-- `Resolver::visit_expr`: `For`, `Repeat`, `Lambda`, `Path` get bespoke
scope handling, everything else walks its children. -/
def visitExpr (s : RState) : Expr → Option RState
  | .lit => some s
  | .tuple es => visitExprs s es
  | .path p => resolveTermSt s p
  | .forE pat iter body =>
    match visitExpr s iter with
    | none => none
    | some s1 =>
      match bindPat (pushScope s1) pat with
      | none => none
      | some s2 =>
        match visitBlockV s2 body with
        | none => none
        | some s3 => popScope s3
  | .repeatE body cond fixup =>
    match walkBlockNS (pushScope s) body with
    | none => none
    | some s1 =>
      match visitExpr s1 cond with
      | none => none
      | some s2 =>
        match walkOptBlockNS s2 fixup with
        | none => none
        | some s3 => popScope s3
  | .lambda input output =>
    match bindPat (pushScope s) input with
    | none => none
    | some s1 =>
      match visitExpr s1 output with
      | none => none
      | some s2 => popScope s2
  | .blockE b => visitBlockV s b

def visitExprs (s : RState) : List Expr → Option RState
  | [] => some s
  | e :: rest =>
    match visitExpr s e with
    | none => none
    | some s1 => visitExprs s1 rest

/-- `visit::walk_qubit_init`: visit the expressions inside an initializer. -/
def visitQubitInit (s : RState) : QubitInit → Option RState
  | .singleQI e => visitExpr s e
  | .tupleQI qis => visitQubitInits s qis

def visitQubitInits (s : RState) : List QubitInit → Option RState
  | [] => some s
  | q :: rest =>
    match visitQubitInit s q with
    | none => none
    | some s1 => visitQubitInits s1 rest

/-- `Resolver::visit_stmt`: `Local` binds its pattern after walking the
statement; `Qubit` walks the initializer, binds the pattern, then — note —
walks any attached block with `walk_block`, NOT `visit_block`, so no fresh
scope is pushed for it. -/
def visitStmt (s : RState) : Stmt → Option RState
  | .empty => some s
  | .exprS e => visitExpr s e
  | .semi e => visitExpr s e
  | .localS pat init =>
    match visitPat s pat with
    | none => none
    | some s1 =>
      match visitExpr s1 init with
      | none => none
      | some s2 => bindPat s2 pat
  | .qubit pat init blk =>
    match visitQubitInit s init with
    | none => none
    | some s1 =>
      match bindPat s1 pat with
      | none => none
      | some s2 => walkOptBlockNS s2 blk

def visitStmts (s : RState) : List Stmt → Option RState
  | [] => some s
  | st :: rest =>
    match visitStmt s st with
    | none => none
    | some s1 => visitStmts s1 rest

/-- `visit::walk_block` without a fresh scope: visit each statement. -/
def walkBlockNS (s : RState) : Block → Option RState
  | .mk stmts => visitStmts s stmts

/-- Walk an optional block with `walk_block` (no fresh scope). -/
def walkOptBlockNS (s : RState) : Option Block → Option RState
  | some b => walkBlockNS s b
  | none => some s

/-- `Resolver::visit_block`: `with_scope` around `walk_block`. -/
def visitBlockV (s : RState) : Block → Option RState
  | .mk stmts =>
    match visitStmts (pushScope s) stmts with
    | none => none
    | some s1 => popScope s1

end

/-- Visibility: the spec describes a single internal-to-defining-package
flag.  Modelled from the spec: an item either carries the internal marker
(`some internal`) or no visibility attribute (`none`). -/
inductive VisibilityKind where
  | internal
deriving DecidableEq, Repr

/-- Item metadata: the declared visibility, if any. -/
structure ItemMeta where
  visibility : Option VisibilityKind
deriving DecidableEq, Repr

/-- A callable declaration, as far as the global table consumes it. -/
structure CallableDecl where
  name : Ident
  input : Pat

/-- Namespace items (`qsc_ast::ast::ItemKind`): callable declaration, type
declaration, open directive, or error placeholder. -/
inductive ItemKind where
  | callable (decl : CallableDecl)
  | tyItem (name : Ident)
  | openItem (name : Ident) (al : Option Ident)
  | errItem

/-- A namespace item with its metadata. -/
structure Item where
  meta : ItemMeta
  kind : ItemKind

/-- A namespace declaration: name and items. -/
structure NamespaceDecl where
  name : Ident
  items : List Item

/-- The state of `GlobalTable`. -/
structure GState where
  resolutions : List (NodeId × DefId)
  tys : Globals
  terms : Globals
  package : PackageSrc
  curNs : String
deriving DecidableEq, Repr

/-- `self.terms.entry(self.namespace).or_default().insert(name, id)`. -/
def ginsert (g : Globals) (nsp name : String) (id : DefId) : Globals :=
  ainsert g nsp (ainsert ((alookup g nsp).getD []) name id)

/-- `GlobalTable::visit_item`: skip internal items of external packages;
bind callables in the term table, types in both tables; record
binding-occurrence resolutions for local items only. -/
def visitItem (g : GState) (item : Item) : GState :=
  if g.package ≠ PackageSrc.Local ∧ item.meta.visibility = some .internal then g
  else
    match item.kind with
    | .callable decl =>
      let id : DefId := ⟨g.package, decl.name.id⟩
      let g1 := if g.package = PackageSrc.Local
        then {g with resolutions := ainsert g.resolutions decl.name.id id}
        else g
      {g1 with terms := ginsert g1.terms g1.curNs decl.name.name id}
    | .tyItem name =>
      let id : DefId := ⟨g.package, name.id⟩
      let g1 := if g.package = PackageSrc.Local
        then {g with resolutions := ainsert g.resolutions name.id id}
        else g
      {g1 with tys := ginsert g1.tys g1.curNs name.name id,
               terms := ginsert g1.terms g1.curNs name.name id}
    | .openItem _ _ => g
    | .errItem => g

/-- `GlobalTable::visit_namespace` plus the default item iteration
(modelled from the spec: a namespace's items are processed in declaration
order). -/
def visitNamespaceG (g : GState) (n : NamespaceDecl) : GState :=
  let g1 := {g with curNs := n.name.name}
  let g2 := n.items.foldl visitItem g1
  {g2 with curNs := ""}

/-- The span the `resolve_explicit_opens` loop leaves for one `DefId`: the
last contributing entry in iteration order wins. -/
def updStep (globals : Globals) (name : String) (d : DefId)
    (o : Option Span) (nsSpan : String × Span) : Option Span :=
  if gget globals nsSpan.1 name = some d then some nsSpan.2 else o

/-- `s1` and `s2` are the two smallest elements of `spans` in increasing
order: `s1` is a minimum of `spans`, and `s2` a minimum of what remains
after removing one occurrence of `s1`. -/
def TwoSmallest (spans : List Span) (s1 s2 : Span) : Prop :=
  s1 ∈ spans ∧ s2 ∈ spans.erase s1 ∧ (∀ t ∈ spans, s1 ≤ t) ∧
    (∀ t ∈ spans.erase s1, s2 ≤ t) ∧ s1 ≤ s2

/-- The term-table binding an item would create: its declared simple name
and declaring node (callables and types; opens and error items bind
nothing). -/
def termBinding : Item → Option (String × NodeId)
  | ⟨_, .callable decl⟩ => some (decl.name.name, decl.name.id)
  | ⟨_, .tyItem name⟩ => some (name.name, name.id)
  | ⟨_, .openItem _ _⟩ => none
  | ⟨_, .errItem⟩ => none

/-! ### Association-list lemmas -/

section AListLemmas

variable {α β : Type} [DecidableEq α]

theorem alookup_cons (k : α) (v : β) (l : List (α × β)) (a : α) :
    alookup ((k, v) :: l) a = if k = a then some v else alookup l a := rfl

theorem alookup_ainsert_self (l : List (α × β)) (k : α) (v : β) :
    alookup (ainsert l k v) k = some v := by
  induction l with
  | nil => simp [ainsert, alookup]
  | cons hd tl ih =>
    obtain ⟨hk, hv⟩ := hd
    simp only [ainsert]
    split_ifs with h1
    · simp [alookup_cons]
    · rw [alookup_cons, if_neg h1, ih]

theorem alookup_ainsert_ne (l : List (α × β)) (k : α) (v : β) (a : α)
    (hka : k ≠ a) : alookup (ainsert l k v) a = alookup l a := by
  induction l with
  | nil => simp [ainsert, alookup, hka]
  | cons hd tl ih =>
    obtain ⟨hk, hv⟩ := hd
    simp only [ainsert]
    split_ifs with h1
    · subst h1
      rw [alookup_cons, alookup_cons]
      simp [hka]
    · rw [alookup_cons, alookup_cons, ih]

theorem alookup_ainsert (l : List (α × β)) (k : α) (v : β) (a : α) :
    alookup (ainsert l k v) a = if k = a then some v else alookup l a := by
  by_cases hka : k = a
  · subst hka
    simp [alookup_ainsert_self]
  · simp [hka, alookup_ainsert_ne l k v a hka]

theorem ainsert_of_not_mem_keys (l : List (α × β)) (k : α) (v : β)
    (h : k ∉ l.map Prod.fst) : ainsert l k v = l ++ [(k, v)] := by
  induction l with
  | nil => simp [ainsert]
  | cons hd tl ih =>
    obtain ⟨hk, hv⟩ := hd
    simp only [List.map_cons, List.mem_cons] at h
    push_neg at h
    simp only [ainsert]
    rw [if_neg (Ne.symm h.1), ih h.2]
    simp

theorem mem_ainsert_of_mem {l : List (α × β)} {k : α} {v : β} {p : α × β}
    (hp : p ∈ ainsert l k v) : p ∈ l ∨ p = (k, v) := by
  induction l with
  | nil =>
    simp [ainsert] at hp
    simp [hp]
  | cons hd tl ih =>
    obtain ⟨hk, hv⟩ := hd
    simp only [ainsert] at hp
    split_ifs at hp with h1
    · rcases List.mem_cons.mp hp with heq | htl
      · exact Or.inr heq
      · exact Or.inl (List.mem_cons_of_mem _ htl)
    · rcases List.mem_cons.mp hp with heq | htl
      · exact Or.inl (heq ▸ List.mem_cons_self _ _)
      · rcases ih htl with h | h
        · exact Or.inl (List.mem_cons_of_mem _ h)
        · exact Or.inr h

theorem ainsert_keys_nodup (l : List (α × β)) (k : α) (v : β)
    (h : (l.map Prod.fst).Nodup) : ((ainsert l k v).map Prod.fst).Nodup := by
  induction l with
  | nil => simp [ainsert]
  | cons hd tl ih =>
    obtain ⟨hk, hv⟩ := hd
    simp only [List.map_cons, List.nodup_cons] at h
    simp only [ainsert]
    split_ifs with h1
    · subst h1
      simp [List.nodup_cons, h.1, h.2]
    · refine List.nodup_cons.mpr ⟨?_, ih h.2⟩
      intro hmem
      rcases List.mem_map.mp hmem with ⟨p, hp, hfst⟩
      rcases mem_ainsert_of_mem hp with hpl | hpk
      · exact h.1 (List.mem_map.mpr ⟨p, hpl, hfst⟩)
      · rw [hpk] at hfst
        simp only at hfst
        exact h1 hfst.symm

theorem alookup_eq_some_of_mem_nodup (l : List (α × β)) (k : α) (v : β)
    (hnd : (l.map Prod.fst).Nodup) (hmem : (k, v) ∈ l) : alookup l k = some v := by
  induction l with
  | nil => simp at hmem
  | cons hd tl ih =>
    obtain ⟨hk, hv⟩ := hd
    simp only [List.map_cons, List.nodup_cons] at hnd
    rcases List.mem_cons.mp hmem with heq | htl
    · cases heq.symm
      simp [alookup_cons]
    · rw [alookup_cons]
      split_ifs with h1
      · subst h1
        exact absurd (List.mem_map.mpr ⟨(hk, v), htl, rfl⟩) hnd.1
      · exact ih hnd.2 htl

theorem mem_of_alookup_eq_some {l : List (α × β)} {k : α} {v : β}
    (h : alookup l k = some v) : (k, v) ∈ l := by
  induction l with
  | nil => simp [alookup] at h
  | cons hd tl ih =>
    obtain ⟨hk, hv⟩ := hd
    rw [alookup_cons] at h
    split_ifs at h with h1
    · subst h1
      simp only [Option.some.injEq] at h
      simp [h]
    · exact List.mem_cons_of_mem _ (ih h)

end AListLemmas

/-! ### `resolve_explicit_opens` characterizations -/

theorem reoStep_some (globals : Globals) (name : String)
    (acc : List (DefId × Span)) (nsSpan : String × Span) (d : DefId)
    (hg : gget globals nsSpan.1 name = some d) :
    reoStep globals name acc nsSpan = ainsert acc d nsSpan.2 := by
  simp [reoStep, hg]

theorem reoStep_none (globals : Globals) (name : String)
    (acc : List (DefId × Span)) (nsSpan : String × Span)
    (hg : gget globals nsSpan.1 name = none) :
    reoStep globals name acc nsSpan = acc := by
  simp [reoStep, hg]

theorem reo_fold_keys_nodup (globals : Globals) (name : String)
    (L : List (String × Span)) (acc : List (DefId × Span))
    (h : (acc.map Prod.fst).Nodup) :
    ((L.foldl (reoStep globals name) acc).map Prod.fst).Nodup := by
  induction L generalizing acc with
  | nil => simpa using h
  | cons hd tl ih =>
    simp only [List.foldl_cons]
    apply ih
    unfold reoStep
    cases hg : gget globals hd.1 name with
    | none => exact h
    | some d => exact ainsert_keys_nodup _ _ _ h

theorem reo_keys_nodup (globals : Globals) (name : String)
    (L : List (String × Span)) :
    ((resolveExplicitOpens globals L name).map Prod.fst).Nodup :=
  reo_fold_keys_nodup globals name L [] (by simp)

theorem reo_fold_alookup (globals : Globals) (name : String)
    (L : List (String × Span)) (acc : List (DefId × Span)) (d : DefId) :
    alookup (L.foldl (reoStep globals name) acc) d
      = L.foldl (updStep globals name d) (alookup acc d) := by
  induction L generalizing acc with
  | nil => rfl
  | cons hd tl ih =>
    simp only [List.foldl_cons]
    rw [ih]
    congr 1
    unfold reoStep updStep
    cases hg : gget globals hd.1 name with
    | none => simp [hg]
    | some d2 =>
      by_cases hd2 : d2 = d
      · subst hd2
        simp [hg, alookup_ainsert_self]
      · simp [hg, hd2, alookup_ainsert_ne _ _ _ _ hd2]

theorem reo_alookup (globals : Globals) (name : String)
    (L : List (String × Span)) (d : DefId) :
    alookup (resolveExplicitOpens globals L name) d
      = L.foldl (updStep globals name d) none :=
  reo_fold_alookup globals name L [] d

theorem contribs_cons_some (globals : Globals) (name : String)
    (hd : String × Span) (tl : List (String × Span)) (d : DefId)
    (hg : gget globals hd.1 name = some d) :
    contribs globals (hd :: tl) name = (d, hd.2) :: contribs globals tl name := by
  simp [contribs, List.filterMap_cons, hg]

theorem contribs_cons_none (globals : Globals) (name : String)
    (hd : String × Span) (tl : List (String × Span))
    (hg : gget globals hd.1 name = none) :
    contribs globals (hd :: tl) name = contribs globals tl name := by
  simp [contribs, List.filterMap_cons, hg]

/-- When the contributing opens supply pairwise-distinct `DefId`s, the
candidate map built by `resolve_explicit_opens` is exactly the contribution
list, in order. -/
theorem reo_fold_eq_append (globals : Globals) (name : String)
    (L : List (String × Span)) (acc : List (DefId × Span))
    (h : ((acc ++ contribs globals L name).map Prod.fst).Nodup) :
    L.foldl (reoStep globals name) acc = acc ++ contribs globals L name := by
  induction L generalizing acc with
  | nil => simp [contribs]
  | cons hd tl ih =>
    cases hg : gget globals hd.1 name with
    | none =>
      rw [contribs_cons_none globals name hd tl hg] at h ⊢
      simp only [List.foldl_cons]
      rw [reoStep_none globals name acc hd hg]
      exact ih acc h
    | some d =>
      rw [contribs_cons_some globals name hd tl d hg] at h ⊢
      have hmf : (acc.map Prod.fst
          ++ ((d, hd.2) :: contribs globals tl name).map Prod.fst).Nodup := by
        simpa [List.map_append] using h
      have hdisj : d ∉ acc.map Prod.fst := by
        intro hmem
        exact List.disjoint_of_nodup_append hmf hmem (by simp)
      simp only [List.foldl_cons]
      rw [reoStep_some globals name acc hd d hg,
        ainsert_of_not_mem_keys acc d hd.2 hdisj]
      have hacc : (((acc ++ [(d, hd.2)]) ++ contribs globals tl name).map
          Prod.fst).Nodup := by
        simpa [List.append_assoc] using h
      rw [ih (acc ++ [(d, hd.2)]) hacc]
      simp

theorem reo_eq_contribs (globals : Globals) (name : String)
    (L : List (String × Span))
    (h : ((contribs globals L name).map Prod.fst).Nodup) :
    resolveExplicitOpens globals L name = contribs globals L name := by
  have := reo_fold_eq_append globals name L [] (by simpa using h)
  simpa [resolveExplicitOpens] using this

/-- If every contribution carries the same `DefId`, the candidate map stays
in the shape `[]` or `[(d, _)]` through the whole fold. -/
theorem reo_fold_shape (globals : Globals) (name : String) (d : DefId) :
    ∀ (L : List (String × Span)) (acc : List (DefId × Span)),
      (∀ c ∈ contribs globals L name, c.1 = d) →
      (acc = [] ∨ ∃ sp, acc = [(d, sp)]) →
      (L.foldl (reoStep globals name) acc = [] ∨
        ∃ sp, L.foldl (reoStep globals name) acc = [(d, sp)])
  | [], acc, _, hacc => by simpa using hacc
  | hd :: tl, acc, hall, hacc => by
    simp only [List.foldl_cons]
    cases hg : gget globals hd.1 name with
    | none =>
      have halltl : ∀ c ∈ contribs globals tl name, c.1 = d := by
        rw [contribs_cons_none globals name hd tl hg] at hall
        exact hall
      rw [reoStep_none globals name acc hd hg]
      exact reo_fold_shape globals name d tl acc halltl hacc
    | some d2 =>
      have hd2 : d2 = d := by
        apply hall (d2, hd.2)
        rw [contribs_cons_some globals name hd tl d2 hg]
        simp
      subst hd2
      have halltl : ∀ c ∈ contribs globals tl name, c.1 = d2 := by
        rw [contribs_cons_some globals name hd tl d2 hg] at hall
        exact fun c hc => hall c (List.mem_cons_of_mem _ hc)
      rw [reoStep_some globals name acc hd d2 hg]
      apply reo_fold_shape globals name d2 tl _ halltl
      right
      rcases hacc with rfl | ⟨sp, rfl⟩
      · exact ⟨hd.2, rfl⟩
      · exact ⟨hd.2, by simp [ainsert]⟩

/-- Once the running span for `d` is `some`, it stays `some`. -/
theorem fold_upd_isSome (globals : Globals) (name : String) (d : DefId) :
    ∀ (L : List (String × Span)) (s : Span),
      ∃ s2, L.foldl (updStep globals name d) (some s) = some s2
  | [], s => ⟨s, rfl⟩
  | hd :: tl, s => by
    simp only [List.foldl_cons]
    unfold updStep
    split_ifs
    · exact fold_upd_isSome globals name d tl hd.2
    · exact fold_upd_isSome globals name d tl s

/-- A contributing entry forces the recorded span for its `DefId` to be
`some`. -/
theorem fold_upd_exists (globals : Globals) (name : String) (d : DefId) :
    ∀ (L : List (String × Span)) (p : String × Span), p ∈ L →
      gget globals p.1 name = some d → ∀ o : Option Span,
      ∃ s, L.foldl (updStep globals name d) o = some s
  | [], p, hp, _, _ => absurd hp (List.not_mem_nil p)
  | hd :: tl, p, hp, hg, o => by
    simp only [List.foldl_cons]
    rcases List.mem_cons.mp hp with rfl | htl
    · rw [show updStep globals name d o p = some p.2 by simp [updStep, hg]]
      exact fold_upd_isSome globals name d tl p.2
    · exact fold_upd_exists globals name d tl p htl hg _

/-- If no entry contributes `d`, the running span never changes. -/
theorem fold_upd_none_all (globals : Globals) (name : String) (d : DefId) :
    ∀ (L : List (String × Span)),
      (∀ p ∈ L, gget globals p.1 name ≠ some d) → ∀ o : Option Span,
      L.foldl (updStep globals name d) o = o
  | [], _, o => rfl
  | hd :: tl, h, o => by
    simp only [List.foldl_cons]
    rw [show updStep globals name d o hd = o by
      simp [updStep, h hd (List.mem_cons_self hd tl)]]
    exact fold_upd_none_all globals name d tl
      (fun p hp => h p (List.mem_cons_of_mem _ hp)) o

/-- If every entry contributing `d` carries the span `sd`, the running span
for `d` stabilises at `sd`. -/
theorem fold_upd_const (globals : Globals) (name : String) (d : DefId)
    (sd : Span) :
    ∀ (L : List (String × Span)),
      (∀ p ∈ L, gget globals p.1 name = some d → p.2 = sd) →
      L.foldl (updStep globals name d) (some sd) = some sd
  | [], _ => rfl
  | hd :: tl, h => by
    simp only [List.foldl_cons]
    have htl := fun p hp => h p (List.mem_cons_of_mem _ hp)
    unfold updStep
    split_ifs with hc
    · rw [h hd (List.mem_cons_self hd tl) hc]
      exact fold_upd_const globals name d sd tl htl
    · exact fold_upd_const globals name d sd tl htl

/-- With span-compatible contributions, the recorded span for `d` is the
common span `sd` as soon as one contributor exists. -/
theorem fold_upd_compat (globals : Globals) (name : String) (d : DefId)
    (sd : Span) :
    ∀ (L : List (String × Span)),
      (∀ p ∈ L, gget globals p.1 name = some d → p.2 = sd) →
      (∃ p ∈ L, gget globals p.1 name = some d) →
      L.foldl (updStep globals name d) none = some sd
  | [], _, hex => absurd hex (by simp)
  | hd :: tl, h, hex => by
    simp only [List.foldl_cons]
    have htl := fun p hp => h p (List.mem_cons_of_mem _ hp)
    by_cases hc : gget globals hd.1 name = some d
    · rw [show updStep globals name d none hd = some hd.2 by simp [updStep, hc],
        h hd (List.mem_cons_self hd tl) hc]
      exact fold_upd_const globals name d sd tl htl
    · rw [show updStep globals name d none hd = none by simp [updStep, hc]]
      rcases hex with ⟨p, hp, hg⟩
      rcases List.mem_cons.mp hp with rfl | hptl
      · exact absurd hg hc
      · exact fold_upd_compat globals name d sd tl htl ⟨p, hptl, hg⟩


/-! ### Permutation invariance of the candidate map -/

theorem reo_alookup_eq_of_perm_compat (globals : Globals) (name : String)
    (L1 L2 : List (String × Span)) (hperm : L1.Perm L2)
    (hcompat : ∀ p ∈ L1, ∀ q ∈ L1, ∀ d : DefId,
      gget globals p.1 name = some d → gget globals q.1 name = some d →
        p.2 = q.2)
    (d : DefId) :
    alookup (resolveExplicitOpens globals L1 name) d
      = alookup (resolveExplicitOpens globals L2 name) d := by
  rw [reo_alookup, reo_alookup]
  by_cases hex : ∃ p ∈ L1, gget globals p.1 name = some d
  · obtain ⟨p0, hp0, hg0⟩ := hex
    have hs1 : ∀ p ∈ L1, gget globals p.1 name = some d → p.2 = p0.2 :=
      fun p hp hg => hcompat p hp p0 hp0 d hg hg0
    have hs2 : ∀ p ∈ L2, gget globals p.1 name = some d → p.2 = p0.2 :=
      fun p hp hg => hcompat p (hperm.mem_iff.mpr hp) p0 hp0 d hg hg0
    rw [fold_upd_compat globals name d p0.2 L1 hs1 ⟨p0, hp0, hg0⟩,
      fold_upd_compat globals name d p0.2 L2 hs2
        ⟨p0, hperm.mem_iff.mp hp0, hg0⟩]
  · push_neg at hex
    have hex2 : ∀ p ∈ L2, gget globals p.1 name ≠ some d :=
      fun p hp => hex p (hperm.mem_iff.mpr hp)
    rw [fold_upd_none_all globals name d L1 hex none,
      fold_upd_none_all globals name d L2 hex2 none]

theorem reo_perm_of_perm_compat (globals : Globals) (name : String)
    (L1 L2 : List (String × Span)) (hperm : L1.Perm L2)
    (hcompat : ∀ p ∈ L1, ∀ q ∈ L1, ∀ d : DefId,
      gget globals p.1 name = some d → gget globals q.1 name = some d →
        p.2 = q.2) :
    (resolveExplicitOpens globals L1 name).Perm
      (resolveExplicitOpens globals L2 name) := by
  have hnd1 := reo_keys_nodup globals name L1
  have hnd2 := reo_keys_nodup globals name L2
  apply List.perm_of_nodup_nodup_toFinset_eq (List.Nodup.of_map _ hnd1)
    (List.Nodup.of_map _ hnd2)
  apply Finset.ext
  intro p
  simp only [List.mem_toFinset]
  obtain ⟨pd, ps⟩ := p
  constructor
  · intro hmem
    have hl := alookup_eq_some_of_mem_nodup _ pd ps hnd1 hmem
    rw [reo_alookup_eq_of_perm_compat globals name L1 L2 hperm hcompat pd]
      at hl
    exact mem_of_alookup_eq_some hl
  · intro hmem
    have hl := alookup_eq_some_of_mem_nodup _ pd ps hnd2 hmem
    rw [← reo_alookup_eq_of_perm_compat globals name L1 L2 hperm hcompat pd]
      at hl
    exact mem_of_alookup_eq_some hl

theorem eq_of_perm_length_le_one {α : Type} {l1 l2 : List α}
    (hperm : l1.Perm l2) (hlen : l1.length ≤ 1) : l1 = l2 := by
  cases l1 with
  | nil => exact hperm.symm.eq_nil.symm
  | cons a t =>
    cases t with
    | nil => exact (List.perm_singleton.mp hperm.symm).symm
    | cons b u => simp at hlen

theorem resolveFinal_congr (c1 c2 : List (DefId × Span)) (name : String)
    (span : Span) (hperm : c1.Perm c2) :
    resolveFinal c1 name span = resolveFinal c2 name span := by
  have hlen := hperm.length_eq
  unfold resolveFinal
  by_cases h1 : c1.length > 1
  · rw [if_pos h1, if_pos (by omega)]
    have hp2 : (List.insertionSort (fun a b : Span => a ≤ b)
          (c1.map Prod.snd)).Perm
        (List.insertionSort (fun a b : Span => a ≤ b) (c2.map Prod.snd)) :=
      (List.perm_insertionSort _ _).trans
        ((hperm.map _).trans (List.perm_insertionSort _ _).symm)
    have hsort := List.eq_of_perm_of_sorted hp2
      (List.sorted_insertionSort _ _) (List.sorted_insertionSort _ _)
    rw [hsort]
  · rw [eq_of_perm_length_le_one hperm (by omega)]

theorem resolveUnopened_congr (globals : Globals)
    (c1 c2 : List (DefId × Span)) (name nsp : String) (span : Span)
    (hperm : c1.Perm c2) :
    resolveUnopened globals c1 name nsp span
      = resolveUnopened globals c2 name nsp span := by
  unfold resolveUnopened
  by_cases h1 : c1 = []
  · have hc2 : c2 = [] := by
      subst h1
      exact hperm.symm.eq_nil
    subst h1
    subst hc2
    rfl
  · have hc2 : c2 ≠ [] := fun h => h1 (by
      subst h
      exact hperm.eq_nil)
    rw [if_neg h1, if_neg hc2]
    exact resolveFinal_congr c1 c2 name span hperm

theorem resolveRest_congr (globals : Globals) (c1 c2 : List (DefId × Span))
    (name nsp : String) (span : Span) (hperm : c1.Perm c2) :
    resolveRest globals c1 name nsp span
      = resolveRest globals c2 name nsp span := by
  unfold resolveRest
  by_cases h1 : c1 = []
  · have hc2 : c2 = [] := by
      subst h1
      exact hperm.symm.eq_nil
    subst h1
    subst hc2
    rfl
  · have hc2 : c2 ≠ [] := fun h => h1 (by
      subst h
      exact hperm.eq_nil)
    rw [if_neg (by simp [h1]), if_neg (by simp [hc2])]
    exact resolveUnopened_congr globals c1 c2 name nsp span hperm

/-! ### The two smallest spans of a candidate list -/

theorem twoSmallest_of_insertionSort (spans : List Span) (s1 s2 : Span)
    (rest : List Span)
    (h : List.insertionSort (fun a b : Span => a ≤ b) spans
      = s1 :: s2 :: rest) :
    TwoSmallest spans s1 s2 := by
  have hperm : (s1 :: s2 :: rest).Perm spans :=
    h ▸ List.perm_insertionSort _ spans
  have hsorted : List.Sorted (fun a b : Span => a ≤ b) (s1 :: s2 :: rest) :=
    h ▸ List.sorted_insertionSort _ spans
  have hs1min : ∀ t ∈ s2 :: rest, s1 ≤ t :=
    List.rel_of_sorted_cons hsorted
  have hs2min : ∀ t ∈ rest, s2 ≤ t :=
    List.rel_of_sorted_cons hsorted.of_cons
  have herase : (s2 :: rest).Perm (spans.erase s1) := by
    have he := hperm.erase s1
    rw [List.erase_cons_head] at he
    exact he
  refine ⟨hperm.mem_iff.mp (by simp), herase.mem_iff.mp (by simp), ?_, ?_, ?_⟩
  · intro t ht
    rcases List.mem_cons.mp (hperm.mem_iff.mpr ht) with rfl | h2
    · rw [Span.le_def]
      omega
    · exact hs1min t h2
  · intro t ht
    rcases List.mem_cons.mp (herase.mem_iff.mpr ht) with rfl | h2
    · rw [Span.le_def]
      omega
    · exact hs2min t h2
  · exact hs1min s2 (by simp)

/-! ### Scope-stack search lemmas -/

theorem findLocal_cons_none (env : Scope) (t : LocalsStack) (nm : String)
    (h : alookup env nm = none) : findLocal (env :: t) nm = findLocal t nm := by
  simp [findLocal, List.findSome?_cons, h]

theorem findLocal_cons_some (env : Scope) (t : LocalsStack) (nm : String)
    (d : DefId) (h : alookup env nm = some d) :
    findLocal (env :: t) nm = some d := by
  simp [findLocal, List.findSome?_cons, h]

theorem findLocal_append_none (inner rest : LocalsStack) (nm : String)
    (h : ∀ e ∈ inner, alookup e nm = none) :
    findLocal (inner ++ rest) nm = findLocal rest nm := by
  induction inner with
  | nil => rfl
  | cons e t ih =>
    rw [List.cons_append, findLocal_cons_none e _ nm (h e (by simp))]
    exact ih fun e2 he2 => h e2 (by simp [he2])

theorem findLocal_eq_none (locals : LocalsStack) (nm : String)
    (h : ∀ e ∈ locals, alookup e nm = none) : findLocal locals nm = none := by
  rw [findLocal]
  exact List.findSome?_eq_none_iff.mpr h

/-! ### Reduction lemmas for `resolve` -/

theorem reo_ne_nil (globals : Globals) (name : String)
    (L : List (String × Span)) (hne : contribs globals L name ≠ []) :
    resolveExplicitOpens globals L name ≠ [] := by
  obtain ⟨c, hc⟩ : ∃ c, c ∈ contribs globals L name := by
    cases hcl : contribs globals L name with
    | nil => exact absurd hcl hne
    | cons a t => exact ⟨a, by simp [hcl]⟩
  obtain ⟨p, hpL, hmap⟩ := List.mem_filterMap.mp hc
  cases hg : gget globals p.1 name with
  | none =>
    rw [hg] at hmap
    exact absurd hmap (by simp)
  | some d0 =>
    obtain ⟨s, hs⟩ := fold_upd_exists globals name d0 L p hpL hg none
    intro hnil
    have halk := reo_alookup globals name L d0
    rw [hnil, hs] at halk
    simp [alookup] at halk

/-- If the open tier is reached (no local hit and no parent-table hit for
unqualified paths), `resolve` is `resolveRest` on the explicit-open
candidates. -/
theorem resolve_eq_rest (globals : Globals) (opens : Opens) (parent : String)
    (locals : LocalsStack) (path : Path) (L : List (String × Span))
    (hopens : alookup opens (pathNs path) = some L)
    (hreach : pathNs path = "" →
      (findLocal locals path.name.name = none ∧
       gget globals parent path.name.name = none)) :
    resolve globals opens parent locals path
      = resolveRest globals (resolveExplicitOpens globals L path.name.name)
          path.name.name (pathNs path) path.span := by
  by_cases hq : pathNs path = ""
  · obtain ⟨hfind, hpar⟩ := hreach hq
    rw [hq] at hopens
    simp [resolve, hq, hfind, hpar, hopens]
  · simp [resolve, hq, hopens]

/-- Same as `resolve_eq_rest` when no open is registered under the path's
qualifier: the candidate list is empty. -/
theorem resolve_eq_rest_noopens (globals : Globals) (opens : Opens)
    (parent : String) (locals : LocalsStack) (path : Path)
    (hopens : alookup opens (pathNs path) = none)
    (hreach : pathNs path = "" →
      (findLocal locals path.name.name = none ∧
       gget globals parent path.name.name = none)) :
    resolve globals opens parent locals path
      = resolveRest globals [] path.name.name (pathNs path) path.span := by
  by_cases hq : pathNs path = ""
  · obtain ⟨hfind, hpar⟩ := hreach hq
    rw [hq] at hopens
    simp [resolve, hq, hfind, hpar, hopens]
  · simp [resolve, hq, hopens]

theorem resolveRest_single (globals : Globals) (cands : List (DefId × Span))
    (nm nsp : String) (span : Span) (d : DefId) (sp : Span)
    (heq : cands = [(d, sp)]) :
    resolveRest globals cands nm nsp span = .ok d := by
  subst heq
  simp [resolveRest, resolveUnopened, resolveFinal, single]

theorem resolveRest_prelude (globals : Globals) (nm : String) (span : Span)
    (d : DefId)
    (hprel : resolveImplicitOpens globals PRELUDE nm = [d]) :
    resolveRest globals [] nm "" span = .ok d := by
  simp [resolveRest, hprel, single]

theorem resolveRest_ambiguous (globals : Globals)
    (cands : List (DefId × Span)) (nm nsp : String) (span : Span)
    (s1 s2 : Span) (rest : List Span)
    (hlen : cands.length > 1)
    (hsort : List.insertionSort (fun a b : Span => a ≤ b) (cands.map Prod.snd)
      = s1 :: s2 :: rest) :
    resolveRest globals cands nm nsp span
      = .err (.Ambiguous nm span s1 s2) := by
  have hne : cands ≠ [] := by
    intro h
    rw [h] at hlen
    simp at hlen
  unfold resolveRest resolveUnopened resolveFinal
  rw [if_neg (by simp [hne]), if_neg hne, if_pos hlen, hsort]

/-! ### Claims -/

/-- **C1.**  For every term-position identifier occurrence with no namespace
qualifier whose simple name is bound in some scope on the lexical scope
stack, `resolve` returns the `DefId` of the innermost such binding,
regardless of the contents of the namespace tables, the opens, the prelude,
or the unopened globals (all quantified arbitrarily); and type-position
occurrences never see local bindings: `resolve_ty` resolves against the
type table even when the name is bound on the stack. -/
theorem C1_locals_shadow_everything :
    (∀ (globals : Globals) (opens : Opens) (parent : String)
        (inner : LocalsStack) (env : Scope) (outer : LocalsStack)
        (path : Path) (id : DefId),
      path.ns = none →
      (∀ e ∈ inner, alookup e path.name.name = none) →
      alookup env path.name.name = some id →
      resolve globals opens parent (inner ++ env :: outer) path
        = .ok id) ∧
    (∀ (s : RState) (path : Path) (dL dT : DefId),
      path.ns = none →
      findLocal s.locals path.name.name = some dL →
      gget s.tys s.curNs path.name.name = some dT →
      resolveTySt s path
        = some {s with resolutions := ainsert s.resolutions path.id dT}) := by
  constructor
  · intro globals opens parent inner env outer path id hns hinner henv
    have hnsp : pathNs path = "" := by simp [pathNs, hns]
    have hfind : findLocal (inner ++ env :: outer) path.name.name = some id := by
      rw [findLocal_append_none inner (env :: outer) path.name.name hinner]
      exact findLocal_cons_some env outer path.name.name id henv
    simp [resolve, hnsp, hfind]
  · intro s path dL dT hns hloc htys
    have hnsp : pathNs path = "" := by simp [pathNs, hns]
    have hfind : findLocal ([] : LocalsStack) path.name.name = none := rfl
    simp [resolveTySt, resolve, hnsp, hfind, htys]

/-- Witness for C1 at concrete inputs: a local `x` (node 7) shadows the
parent-namespace `x` (node 1) in term position, while in type position the
table entry (node 3) wins over the local. -/
theorem C1_witness :
    resolve [("A", [("x", ⟨PackageSrc.Local, 1⟩)])] [] "A"
        [[], [("x", ⟨PackageSrc.Local, 7⟩)]]
        ⟨100, ⟨5, 6⟩, none, ⟨101, ⟨5, 6⟩, "x"⟩⟩
      = .ok ⟨PackageSrc.Local, 7⟩ ∧
    resolveTySt
        ⟨[], [("A", [("x", ⟨PackageSrc.Local, 3⟩)])], [], [], "A",
          [[("x", ⟨PackageSrc.Local, 7⟩)]], []⟩
        ⟨100, ⟨5, 6⟩, none, ⟨101, ⟨5, 6⟩, "x"⟩⟩
      = some ⟨[(100, ⟨PackageSrc.Local, 3⟩)],
          [("A", [("x", ⟨PackageSrc.Local, 3⟩)])], [], [], "A",
          [[("x", ⟨PackageSrc.Local, 7⟩)]], []⟩ := by
  constructor
  · exact C1_locals_shadow_everything.1 _ _ _ [[]]
      [("x", ⟨PackageSrc.Local, 7⟩)] [] _ _ rfl (by decide) (by decide)
  · exact C1_locals_shadow_everything.2 _ _ ⟨PackageSrc.Local, 7⟩
      ⟨PackageSrc.Local, 3⟩ rfl (by decide) (by decide)

/-- **C2.**  An unqualified occurrence whose name is not bound as a local
but is present in the enclosing namespace's own table resolves to that
table's `DefId`, whatever the opens, prelude entries, and other globals
contain (they are quantified arbitrarily and never consulted). -/
theorem C2_own_namespace_shadows_opens (globals : Globals) (opens : Opens)
    (parent : String) (locals : LocalsStack) (path : Path) (id : DefId)
    (hns : path.ns = none)
    (hloc : ∀ env ∈ locals, alookup env path.name.name = none)
    (hpar : gget globals parent path.name.name = some id) :
    resolve globals opens parent locals path = .ok id := by
  have hnsp : pathNs path = "" := by simp [pathNs, hns]
  have hfind := findLocal_eq_none locals path.name.name hloc
  simp [resolve, hnsp, hfind, hpar]

/-- Witness for C2: namespace `A` defines `Foo` (node 1) and opens `B`,
which also defines `Foo` (node 2); the unqualified reference resolves to
`A`'s own item. -/
theorem C2_witness :
    resolve [("A", [("Foo", ⟨PackageSrc.Local, 1⟩)]),
        ("B", [("Foo", ⟨PackageSrc.Local, 2⟩)])]
      [("", [("B", ⟨0, 1⟩)])] "A" []
      ⟨100, ⟨5, 6⟩, none, ⟨101, ⟨5, 6⟩, "Foo"⟩⟩ = .ok ⟨PackageSrc.Local, 1⟩ :=
  C2_own_namespace_shadows_opens _ _ _ _ _ _ rfl (by decide) (by decide)

/-- **C4.**  When the explicit-open tier is reached and every contributing
open supplies the same `DefId` (at least one does), `resolve` returns that
`DefId` — however many separate opens introduced it — and in particular no
`Ambiguous` error is produced. -/
theorem C4_duplicate_opens_collapse (globals : Globals) (opens : Opens)
    (parent : String) (locals : LocalsStack) (path : Path) (d : DefId)
    (L : List (String × Span))
    (hopens : alookup opens (pathNs path) = some L)
    (hreach : pathNs path = "" →
      ((∀ env ∈ locals, alookup env path.name.name = none) ∧
       gget globals parent path.name.name = none))
    (hne : contribs globals L path.name.name ≠ [])
    (hall : ∀ c ∈ contribs globals L path.name.name, c.1 = d) :
    resolve globals opens parent locals path = .ok d := by
  have hreach2 : pathNs path = "" →
      (findLocal locals path.name.name = none ∧
       gget globals parent path.name.name = none) := fun hq =>
    ⟨findLocal_eq_none _ _ (hreach hq).1, (hreach hq).2⟩
  rw [resolve_eq_rest globals opens parent locals path L hopens hreach2]
  rcases reo_fold_shape globals path.name.name d L [] hall (Or.inl rfl) with
    hnil | ⟨sp, hsp⟩
  · exact absurd hnil (reo_ne_nil globals path.name.name L hne)
  · exact resolveRest_single globals _ _ _ _ d sp hsp

/-- Witness for C4: opening `B` and `C`, which both expose the identical
external `DefId` for `Foo`, resolves without ambiguity. -/
theorem C4_witness :
    resolve [("B", [("Foo", ⟨PackageSrc.Extern 1, 5⟩)]),
        ("C", [("Foo", ⟨PackageSrc.Extern 1, 5⟩)])]
      [("", [("B", ⟨0, 1⟩), ("C", ⟨2, 3⟩)])] "A" []
      ⟨100, ⟨10, 11⟩, none, ⟨101, ⟨10, 11⟩, "Foo"⟩⟩
      = .ok ⟨PackageSrc.Extern 1, 5⟩ :=
  C4_duplicate_opens_collapse _ _ _ _ _ _ [("B", ⟨0, 1⟩), ("C", ⟨2, 3⟩)]
    (by decide) (fun _ => ⟨by decide, by decide⟩) (by decide) (by decide)

/-- **C5.**  First part: an unqualified name that reaches the prelude tier
(no local, no parent-table hit, no explicit-open candidate) and is defined
by exactly one prelude namespace resolves to that prelude `DefId`, even when
the unopened-global table (`globals ""`) also has the name.  Second part:
the prelude is only consulted when the open tier found nothing — a sole
open-tier candidate wins no matter what the prelude defines. -/
theorem C5_prelude_fallback :
    (∀ (globals : Globals) (opens : Opens) (parent : String)
        (locals : LocalsStack) (path : Path) (d : DefId),
      path.ns = none →
      (∀ env ∈ locals, alookup env path.name.name = none) →
      gget globals parent path.name.name = none →
      (∀ L, alookup opens "" = some L →
        contribs globals L path.name.name = []) →
      resolveImplicitOpens globals PRELUDE path.name.name = [d] →
      resolve globals opens parent locals path = .ok d) ∧
    (∀ (globals : Globals) (opens : Opens) (parent : String)
        (locals : LocalsStack) (path : Path) (d2 : DefId) (sp : Span)
        (L : List (String × Span)),
      path.ns = none →
      (∀ env ∈ locals, alookup env path.name.name = none) →
      gget globals parent path.name.name = none →
      alookup opens "" = some L →
      contribs globals L path.name.name = [(d2, sp)] →
      resolve globals opens parent locals path = .ok d2) := by
  constructor
  · intro globals opens parent locals path d hns hloc hpar hno hprel
    have hnsp : pathNs path = "" := by simp [pathNs, hns]
    have hreach : pathNs path = "" →
        (findLocal locals path.name.name = none ∧
         gget globals parent path.name.name = none) := fun _ =>
      ⟨findLocal_eq_none _ _ hloc, hpar⟩
    cases halo : alookup opens "" with
    | none =>
      rw [resolve_eq_rest_noopens globals opens parent locals path
        (by rw [hnsp]; exact halo) hreach, hnsp]
      exact resolveRest_prelude globals path.name.name path.span d hprel
    | some L =>
      have hreo : resolveExplicitOpens globals L path.name.name = [] := by
        rw [reo_eq_contribs globals path.name.name L
          (by rw [hno L halo]; simp), hno L halo]
      rw [resolve_eq_rest globals opens parent locals path L
        (by rw [hnsp]; exact halo) hreach, hreo, hnsp]
      exact resolveRest_prelude globals path.name.name path.span d hprel
  · intro globals opens parent locals path d2 sp L hns hloc hpar halo hone
    have hnsp : pathNs path = "" := by simp [pathNs, hns]
    have hreach : pathNs path = "" →
        (findLocal locals path.name.name = none ∧
         gget globals parent path.name.name = none) := fun _ =>
      ⟨findLocal_eq_none _ _ hloc, hpar⟩
    have hreo : resolveExplicitOpens globals L path.name.name = [(d2, sp)] := by
      rw [reo_eq_contribs globals path.name.name L (by rw [hone]; simp), hone]
    rw [resolve_eq_rest globals opens parent locals path L
      (by rw [hnsp]; exact halo) hreach, hreo]
    exact resolveRest_single globals _ _ _ _ d2 sp rfl

/-- Witness for C5.  Part one: `Bar` is found only in prelude namespace
`Microsoft.Quantum.Core` and wins over the unopened-global entry under the
empty namespace key.  Part two: with an open of `B` supplying `Baz`, the
open-tier candidate wins although the prelude also defines `Baz`. -/
theorem C5_witness :
    resolve [("Microsoft.Quantum.Core", [("Bar", ⟨PackageSrc.Extern 0, 4⟩)]),
        ("", [("Bar", ⟨PackageSrc.Local, 9⟩)])]
      [] "A" [] ⟨100, ⟨10, 11⟩, none, ⟨101, ⟨10, 11⟩, "Bar"⟩⟩
      = .ok ⟨PackageSrc.Extern 0, 4⟩ ∧
    resolve [("B", [("Baz", ⟨PackageSrc.Local, 2⟩)]),
        ("Microsoft.Quantum.Core", [("Baz", ⟨PackageSrc.Extern 0, 4⟩)])]
      [("", [("B", ⟨0, 1⟩)])] "A" []
      ⟨100, ⟨10, 11⟩, none, ⟨101, ⟨10, 11⟩, "Baz"⟩⟩
      = .ok ⟨PackageSrc.Local, 2⟩ := by
  constructor
  · exact C5_prelude_fallback.1 _ _ _ _ _ _ rfl (by decide) (by decide)
      (fun L hL => by simp [alookup] at hL) (by decide)
  · exact C5_prelude_fallback.2 _ _ _ _ _ ⟨PackageSrc.Local, 2⟩ ⟨0, 1⟩
      [("B", ⟨0, 1⟩)] rfl (by decide) (by decide) (by decide) (by decide)

theorem resolve_ambiguous_core (globals : Globals) (opens : Opens)
    (parent : String) (locals : LocalsStack) (path : Path)
    (L : List (String × Span))
    (hopens : alookup opens (pathNs path) = some L)
    (hreach : pathNs path = "" →
      (findLocal locals path.name.name = none ∧
       gget globals parent path.name.name = none))
    (hnodup : ((contribs globals L path.name.name).map Prod.fst).Nodup)
    (h2 : 2 ≤ (contribs globals L path.name.name).length) :
    ∃ s1 s2, resolve globals opens parent locals path
        = .err (.Ambiguous path.name.name path.span s1 s2)
      ∧ TwoSmallest ((contribs globals L path.name.name).map Prod.snd) s1 s2 := by
  have hreo := reo_eq_contribs globals path.name.name L hnodup
  have hlen : (resolveExplicitOpens globals L path.name.name).length > 1 := by
    rw [hreo]
    omega
  have hslen := (List.perm_insertionSort (fun a b : Span => a ≤ b)
    ((contribs globals L path.name.name).map Prod.snd)).length_eq
  obtain ⟨s1, s2, rest, hsort⟩ : ∃ s1 s2 rest,
      List.insertionSort (fun a b : Span => a ≤ b)
        ((contribs globals L path.name.name).map Prod.snd)
        = s1 :: s2 :: rest := by
    cases hs : List.insertionSort (fun a b : Span => a ≤ b)
        ((contribs globals L path.name.name).map Prod.snd) with
    | nil =>
      rw [hs] at hslen
      simp at hslen
      omega
    | cons a t =>
      cases t with
      | nil =>
        rw [hs] at hslen
        simp at hslen
        omega
      | cons b u => exact ⟨a, b, u, rfl⟩
  refine ⟨s1, s2, ?_, twoSmallest_of_insertionSort _ s1 s2 rest hsort⟩
  rw [resolve_eq_rest globals opens parent locals path L hopens hreach]
  apply resolveRest_ambiguous globals _ _ _ _ s1 s2 rest hlen
  rw [hreo]
  exact hsort

/-- **C3.**  An occurrence whose explicit-open tier yields two or more
distinct `DefId`s (here: pairwise-distinct contributions, as the builder
guarantees) records exactly one `Ambiguous` error carrying the occurrence's
name and span together with the two smallest contributing directive spans in
increasing order, and writes nothing to the resolution map — in term as well
as in type position. -/
theorem C3_ambiguity_two_earliest_spans :
    (∀ (s : RState) (path : Path) (L : List (String × Span)),
      alookup s.opens (pathNs path) = some L →
      (pathNs path = "" →
        (findLocal s.locals path.name.name = none ∧
         gget s.terms s.curNs path.name.name = none)) →
      ((contribs s.terms L path.name.name).map Prod.fst).Nodup →
      2 ≤ (contribs s.terms L path.name.name).length →
      ∃ s1 s2, resolveTermSt s path
          = some {s with errors :=
              s.errors ++ [.Ambiguous path.name.name path.span s1 s2]}
        ∧ TwoSmallest ((contribs s.terms L path.name.name).map Prod.snd)
            s1 s2) ∧
    (∀ (s : RState) (path : Path) (L : List (String × Span)),
      alookup s.opens (pathNs path) = some L →
      (pathNs path = "" → gget s.tys s.curNs path.name.name = none) →
      ((contribs s.tys L path.name.name).map Prod.fst).Nodup →
      2 ≤ (contribs s.tys L path.name.name).length →
      ∃ s1 s2, resolveTySt s path
          = some {s with errors :=
              s.errors ++ [.Ambiguous path.name.name path.span s1 s2]}
        ∧ TwoSmallest ((contribs s.tys L path.name.name).map Prod.snd)
            s1 s2) := by
  constructor
  · intro s path L hopens hreach hnodup h2
    obtain ⟨s1, s2, hres, htwo⟩ := resolve_ambiguous_core s.terms s.opens
      s.curNs s.locals path L hopens hreach hnodup h2
    exact ⟨s1, s2, by simp [resolveTermSt, hres], htwo⟩
  · intro s path L hopens hreach hnodup h2
    obtain ⟨s1, s2, hres, htwo⟩ := resolve_ambiguous_core s.tys s.opens
      s.curNs [] path L hopens (fun hq => ⟨rfl, hreach hq⟩) hnodup h2
    exact ⟨s1, s2, by simp [resolveTySt, hres], htwo⟩

/-- Witness for C3: three opens contribute three distinct `DefId`s with
unsorted directive spans 30, 10, 20; the recorded error carries the two
smallest spans (10 then 20), one error is appended, and the resolution map
is untouched. -/
theorem C3_witness :
    ∃ s1 s2,
      resolveTermSt
          ⟨[], [], [("B", [("Foo", ⟨PackageSrc.Local, 2⟩)]),
              ("C", [("Foo", ⟨PackageSrc.Local, 3⟩)]),
              ("D", [("Foo", ⟨PackageSrc.Local, 5⟩)])],
            [("", [("B", ⟨30, 31⟩), ("C", ⟨10, 11⟩), ("D", ⟨20, 21⟩)])],
            "A", [], []⟩
          ⟨100, ⟨40, 43⟩, none, ⟨101, ⟨40, 43⟩, "Foo"⟩⟩
        = some {(⟨[], [], [("B", [("Foo", ⟨PackageSrc.Local, 2⟩)]),
              ("C", [("Foo", ⟨PackageSrc.Local, 3⟩)]),
              ("D", [("Foo", ⟨PackageSrc.Local, 5⟩)])],
            [("", [("B", ⟨30, 31⟩), ("C", ⟨10, 11⟩), ("D", ⟨20, 21⟩)])],
            "A", [], []⟩ : RState) with errors :=
              [] ++ [.Ambiguous "Foo" ⟨40, 43⟩ s1 s2]}
      ∧ TwoSmallest [⟨30, 31⟩, ⟨10, 11⟩, ⟨20, 21⟩] s1 s2 :=
  C3_ambiguity_two_earliest_spans.1
    ⟨[], [], [("B", [("Foo", ⟨PackageSrc.Local, 2⟩)]),
        ("C", [("Foo", ⟨PackageSrc.Local, 3⟩)]),
        ("D", [("Foo", ⟨PackageSrc.Local, 5⟩)])],
      [("", [("B", ⟨30, 31⟩), ("C", ⟨10, 11⟩), ("D", ⟨20, 21⟩)])],
      "A", [], []⟩
    ⟨100, ⟨40, 43⟩, none, ⟨101, ⟨40, 43⟩, "Foo"⟩⟩
    [("B", ⟨30, 31⟩), ("C", ⟨10, 11⟩), ("D", ⟨20, 21⟩)]
    (by decide) (fun _ => ⟨rfl, by decide⟩) (by decide) (by decide)

theorem resolveFinal_ne_panic (cands : List (DefId × Span)) (nm : String)
    (span : Span) : resolveFinal cands nm span ≠ .panic := by
  unfold resolveFinal
  split_ifs with h
  · have hlen := (List.perm_insertionSort (fun a b : Span => a ≤ b)
      (cands.map Prod.snd)).length_eq
    cases hs : List.insertionSort (fun a b : Span => a ≤ b)
        (cands.map Prod.snd) with
    | nil =>
      rw [hs] at hlen
      simp at hlen
      omega
    | cons a t =>
      cases t with
      | nil =>
        rw [hs] at hlen
        simp at hlen
        omega
      | cons b u => simp
  · cases hsingle : single (cands.map Prod.fst) <;> simp

theorem resolveUnopened_ne_panic (globals : Globals)
    (cands : List (DefId × Span)) (nm nsp : String) (span : Span) :
    resolveUnopened globals cands nm nsp span ≠ .panic := by
  unfold resolveUnopened
  split_ifs with h
  · cases hg : gget globals nsp nm with
    | some id => simp
    | none => exact resolveFinal_ne_panic cands nm span
  · exact resolveFinal_ne_panic cands nm span

theorem resolveRest_ne_panic (globals : Globals)
    (cands : List (DefId × Span)) (nm nsp : String) (span : Span)
    (hprel : (resolveImplicitOpens globals PRELUDE nm).length ≤ 1) :
    resolveRest globals cands nm nsp span ≠ .panic := by
  simp only [resolveRest]
  by_cases h : cands = [] ∧ nsp = ""
  · rw [if_pos h, if_pos hprel]
    cases hsingle : single (resolveImplicitOpens globals PRELUDE nm) with
    | some id => simp
    | none => exact resolveUnopened_ne_panic globals cands nm nsp span
  · rw [if_neg h]
    exact resolveUnopened_ne_panic globals cands nm nsp span

/-- **C9, amended.**  Whenever at most one distinct `DefId` is collected
for the name across the prelude namespaces, `resolve` cannot panic — in
particular the `spans[0]`/`spans[1]` indexing of the ambiguity branch is
always in bounds.  (The unamended claim is refuted by
`C9_counterexample`.) -/
theorem C9_no_panic_when_prelude_consistent (globals : Globals)
    (opens : Opens) (parent : String) (locals : LocalsStack) (path : Path)
    (hprel : (resolveImplicitOpens globals PRELUDE
      path.name.name).length ≤ 1) :
    resolve globals opens parent locals path ≠ .panic := by
  simp only [resolve]
  split_ifs with hq
  · cases hf : findLocal locals path.name.name with
    | some id => simp
    | none =>
      cases hg : gget globals parent path.name.name with
      | some id => simp
      | none =>
        cases halo : alookup opens (pathNs path) with
        | some L => exact resolveRest_ne_panic globals _ _ _ _ hprel
        | none => exact resolveRest_ne_panic globals _ _ _ _ hprel
  · cases halo : alookup opens (pathNs path) with
    | some L => exact resolveRest_ne_panic globals _ _ _ _ hprel
    | none => exact resolveRest_ne_panic globals _ _ _ _ hprel

/-- Counterexample to C9 as stated: a legal input can declare the same name
in two prelude namespaces (nothing stops a user package from adding items to
`Microsoft.Quantum.Canon` and `Microsoft.Quantum.Core`), and then an
unqualified occurrence reaching the prelude tier trips the
`assert!(candidates.len() <= 1)` — `resolve` panics instead of resolving or
reporting an error. -/
theorem C9_counterexample :
    resolve [("Microsoft.Quantum.Canon", [("Foo", ⟨PackageSrc.Local, 1⟩)]),
        ("Microsoft.Quantum.Core", [("Foo", ⟨PackageSrc.Local, 2⟩)])]
      [] "Test" [] ⟨100, ⟨10, 11⟩, none, ⟨101, ⟨10, 11⟩, "Foo"⟩⟩
      = .panic := by decide

/-- Witness for the amended C9 at a concrete input whose prelude tier is
consistent. -/
theorem C9_witness :
    resolve [("Microsoft.Quantum.Core", [("Foo", ⟨PackageSrc.Local, 2⟩)])]
      [] "Test" [] ⟨100, ⟨10, 11⟩, none, ⟨101, ⟨10, 11⟩, "Foo"⟩⟩
      ≠ .panic :=
  C9_no_panic_when_prelude_consistent _ _ _ _ _ (by decide)

/-- **C7.**  `resolve` does not depend on the hash-map iteration order of
the opens table: two tables registering the same opens for the path's
qualifier in different enumeration orders (a permutation), whose entries are
span-compatible — two opens contributing the same `DefId` carry the same
directive span, which holds for tables built from a tree with distinct
declaring nodes per namespace — produce identical outcomes, including the
two sorted spans of any `Ambiguous` error.  (All other enumerations in
`resolve` are over fixed-order data or size-at-most-one collections.) -/
theorem C7_order_independence (globals : Globals) (opens1 opens2 : Opens)
    (parent : String) (locals : LocalsStack) (path : Path)
    (L1 L2 : List (String × Span))
    (h1 : alookup opens1 (pathNs path) = some L1)
    (h2 : alookup opens2 (pathNs path) = some L2)
    (hperm : L1.Perm L2)
    (hcompat : ∀ p ∈ L1, ∀ q ∈ L1, ∀ d : DefId,
      gget globals p.1 path.name.name = some d →
      gget globals q.1 path.name.name = some d → p.2 = q.2) :
    resolve globals opens1 parent locals path
      = resolve globals opens2 parent locals path := by
  have hreo := reo_perm_of_perm_compat globals path.name.name L1 L2 hperm
    hcompat
  simp only [resolve, h1, h2]
  split_ifs with hq
  · cases hf : findLocal locals path.name.name with
    | some id => rfl
    | none =>
      cases hg : gget globals parent path.name.name with
      | some id => rfl
      | none => exact resolveRest_congr globals _ _ _ _ _ hreo
  · exact resolveRest_congr globals _ _ _ _ _ hreo

/-- Witness for C7: swapping the enumeration order of two conflicting opens
leaves the resolution outcome (an `Ambiguous` error with sorted spans)
unchanged. -/
theorem C7_witness :
    resolve [("B", [("Foo", ⟨PackageSrc.Local, 2⟩)]),
        ("C", [("Foo", ⟨PackageSrc.Local, 3⟩)])]
      [("", [("B", ⟨30, 31⟩), ("C", ⟨10, 11⟩)])] "A" []
      ⟨100, ⟨40, 43⟩, none, ⟨101, ⟨40, 43⟩, "Foo"⟩⟩
      = resolve [("B", [("Foo", ⟨PackageSrc.Local, 2⟩)]),
          ("C", [("Foo", ⟨PackageSrc.Local, 3⟩)])]
        [("", [("C", ⟨10, 11⟩), ("B", ⟨30, 31⟩)])] "A" []
        ⟨100, ⟨40, 43⟩, none, ⟨101, ⟨40, 43⟩, "Foo"⟩⟩ := by
  apply C7_order_independence _ _ _ _ _ _
    [("B", ⟨30, 31⟩), ("C", ⟨10, 11⟩)] [("C", ⟨10, 11⟩), ("B", ⟨30, 31⟩)]
    (by decide) (by decide) (List.Perm.swap _ _ _)
  intro p hp q hq d hpd hqd
  simp only [List.mem_cons, List.not_mem_nil, or_false] at hp hq
  rcases hp with rfl | rfl <;> rcases hq with rfl | rfl <;>
    simp_all [gget, alookup] <;>
    (subst hpd; exact absurd hqd (by decide))

/-- **C8.**  When the global-table builder processes an externally linked
package, an item declared internal contributes nothing at all (the state is
unchanged); items of the local package are never filtered by visibility:
the builder's output is the same whatever visibility a local item carries. -/
theorem C8_internal_items_skipped :
    (∀ (g : GState) (item : Item),
      g.package ≠ PackageSrc.Local →
      item.meta.visibility = some .internal →
      visitItem g item = g) ∧
    (∀ (g : GState) (k : ItemKind) (v1 v2 : Option VisibilityKind),
      g.package = PackageSrc.Local →
      visitItem g ⟨⟨v1⟩, k⟩ = visitItem g ⟨⟨v2⟩, k⟩) := by
  constructor
  · intro g item hpkg hviz
    simp [visitItem, hpkg, hviz]
  · intro g k v1 v2 hpkg
    simp [visitItem, hpkg]

/-- Witness for C8: an internal callable of external package 0 leaves the
state untouched, while for the local package the internal marker makes no
difference. -/
theorem C8_witness :
    visitItem ⟨[], [], [], PackageSrc.Extern 0, "N"⟩
        ⟨⟨some .internal⟩, .callable ⟨⟨3, ⟨1, 2⟩, "F"⟩, Pat.elided⟩⟩
      = ⟨[], [], [], PackageSrc.Extern 0, "N"⟩ ∧
    visitItem ⟨[], [], [], PackageSrc.Local, "N"⟩
        ⟨⟨some .internal⟩, .callable ⟨⟨3, ⟨1, 2⟩, "F"⟩, Pat.elided⟩⟩
      = visitItem ⟨[], [], [], PackageSrc.Local, "N"⟩
        ⟨⟨none⟩, .callable ⟨⟨3, ⟨1, 2⟩, "F"⟩, Pat.elided⟩⟩ := by
  constructor
  · exact C8_internal_items_skipped.1 _ _ (by decide) rfl
  · exact C8_internal_items_skipped.2 _
      (.callable ⟨⟨3, ⟨1, 2⟩, "F"⟩, Pat.elided⟩) (some .internal) none rfl

theorem visitItem_curNs (g : GState) (item : Item) :
    (visitItem g item).curNs = g.curNs := by
  obtain ⟨meta, kind⟩ := item
  cases kind <;> simp only [visitItem] <;> split_ifs <;> rfl

theorem visitItem_package (g : GState) (item : Item) :
    (visitItem g item).package = g.package := by
  obtain ⟨meta, kind⟩ := item
  cases kind <;> simp only [visitItem] <;> split_ifs <;> rfl

theorem foldl_visitItem_curNs (l : List Item) (g : GState) :
    (l.foldl visitItem g).curNs = g.curNs := by
  induction l generalizing g with
  | nil => rfl
  | cons it t ih => rw [List.foldl_cons, ih, visitItem_curNs]

theorem foldl_visitItem_package (l : List Item) (g : GState) :
    (l.foldl visitItem g).package = g.package := by
  induction l generalizing g with
  | nil => rfl
  | cons it t ih => rw [List.foldl_cons, ih, visitItem_package]

theorem gget_ginsert_self (G : Globals) (ns nm : String) (d : DefId) :
    gget (ginsert G ns nm d) ns nm = some d := by
  unfold gget ginsert
  rw [alookup_ainsert_self]
  simp [alookup_ainsert_self]

theorem gget_ginsert_ne (G : Globals) (ns2 nm : String) (d : DefId)
    (ns' f : String) (hnm : nm ≠ f) :
    gget (ginsert G ns2 nm d) ns' f = gget G ns' f := by
  unfold gget ginsert
  by_cases hns : ns2 = ns'
  · subst hns
    rw [alookup_ainsert_self]
    cases hG : alookup G ns2 with
    | none => simp [alookup_ainsert_ne _ _ _ _ hnm, alookup, hnm]
    | some env => simp [alookup_ainsert_ne _ _ _ _ hnm]
  · rw [alookup_ainsert_ne _ _ _ _ hns]

/-- Visiting a local item that binds `(f, nid)` makes the term table map
`f` (in the current namespace) to `DefId(Local, nid)` — overwriting any
earlier entry. -/
theorem visitItem_binding (g : GState) (item : Item) (f : String)
    (nid : NodeId) (hpkg : g.package = PackageSrc.Local)
    (hb : termBinding item = some (f, nid)) :
    gget (visitItem g item).terms g.curNs f
      = some ⟨PackageSrc.Local, nid⟩ := by
  obtain ⟨meta, kind⟩ := item
  cases kind with
  | callable decl =>
    simp only [termBinding, Option.some.injEq, Prod.mk.injEq] at hb
    obtain ⟨hf, hn⟩ := hb
    simp only [visitItem]
    rw [if_neg (by simp [hpkg]), if_pos hpkg]
    simp only
    rw [hf, hn, hpkg]
    exact gget_ginsert_self _ _ _ _
  | tyItem name =>
    simp only [termBinding, Option.some.injEq, Prod.mk.injEq] at hb
    obtain ⟨hf, hn⟩ := hb
    simp only [visitItem]
    rw [if_neg (by simp [hpkg]), if_pos hpkg]
    simp only
    rw [hf, hn, hpkg]
    exact gget_ginsert_self _ _ _ _
  | openItem a b => simp [termBinding] at hb
  | errItem => simp [termBinding] at hb

/-- Visiting an item that does not bind `f` leaves every term-table lookup
of `f` unchanged. -/
theorem visitItem_preserve (g : GState) (item : Item) (f ns' : String)
    (hnb : ∀ nm2 nid, termBinding item = some (nm2, nid) → nm2 ≠ f) :
    gget (visitItem g item).terms ns' f = gget g.terms ns' f := by
  obtain ⟨meta, kind⟩ := item
  cases kind with
  | callable decl =>
    have hne : decl.name.name ≠ f :=
      hnb decl.name.name decl.name.id (by simp [termBinding])
    simp only [visitItem]
    split_ifs <;> first
      | rfl
      | exact gget_ginsert_ne _ _ _ _ _ _ hne
  | tyItem name =>
    have hne : name.name ≠ f :=
      hnb name.name name.id (by simp [termBinding])
    simp only [visitItem]
    split_ifs <;> first
      | rfl
      | exact gget_ginsert_ne _ _ _ _ _ _ hne
  | openItem a b =>
    simp only [visitItem]
    split_ifs <;> rfl
  | errItem =>
    simp only [visitItem]
    split_ifs <;> rfl

theorem foldl_visitItem_preserve (l : List Item) (g : GState)
    (f ns' : String)
    (hnb : ∀ it ∈ l, ∀ nm2 nid, termBinding it = some (nm2, nid) → nm2 ≠ f) :
    gget ((l.foldl visitItem g)).terms ns' f = gget g.terms ns' f := by
  induction l generalizing g with
  | nil => rfl
  | cons it t ih =>
    rw [List.foldl_cons,
      ih (visitItem g it) (fun it2 h2 => hnb it2 (List.mem_cons_of_mem _ h2)),
      visitItem_preserve g it f ns' (hnb it (List.mem_cons_self it t))]

/-- **C10.**  If one namespace of the local package declares two items
(callable or type) with the same simple name, the builder records no error
(its state has no error accumulator at all) and maps the name to the later
item's `DefId`; an unqualified reference in that namespace then resolves to
the later declaration through the own-namespace tier — whatever the opens
table contains — so a same-namespace duplicate never produces an
`Ambiguous` error. -/
theorem C10_same_namespace_duplicate_last_wins (g0 : GState)
    (n : NamespaceDecl) (l1 l2 l3 : List Item) (item1 item2 : Item)
    (f : String) (n1 n2 : NodeId) (opens : Opens) (path : Path)
    (hpkg : g0.package = PackageSrc.Local)
    (hitems : n.items = l1 ++ item1 :: l2 ++ item2 :: l3)
    (_hb1 : termBinding item1 = some (f, n1))
    (hb2 : termBinding item2 = some (f, n2))
    (hl3 : ∀ it ∈ l3, ∀ nm2 nid, termBinding it = some (nm2, nid) → nm2 ≠ f)
    (hns : path.ns = none) (hname : path.name.name = f) :
    gget (visitNamespaceG g0 n).terms n.name.name f
        = some ⟨PackageSrc.Local, n2⟩ ∧
    resolve (visitNamespaceG g0 n).terms opens n.name.name [] path
        = .ok ⟨PackageSrc.Local, n2⟩ := by
  have hterms : (visitNamespaceG g0 n).terms
      = (n.items.foldl visitItem {g0 with curNs := n.name.name}).terms := rfl
  have hmain : gget (visitNamespaceG g0 n).terms n.name.name f
      = some (⟨PackageSrc.Local, n2⟩ : DefId) := by
    rw [hterms, hitems]
    have hfold : (l1 ++ item1 :: l2 ++ item2 :: l3).foldl visitItem
          ({g0 with curNs := n.name.name} : GState)
        = l3.foldl visitItem (visitItem (l2.foldl visitItem
            (visitItem (l1.foldl visitItem
              ({g0 with curNs := n.name.name} : GState)) item1)) item2) := by
      simp [List.foldl_append]
    rw [hfold]
    have hmidpkg : (l2.foldl visitItem (visitItem (l1.foldl visitItem
        ({g0 with curNs := n.name.name} : GState)) item1)).package
        = PackageSrc.Local := by
      simp [foldl_visitItem_package, visitItem_package, hpkg]
    have hmidns : (l2.foldl visitItem (visitItem (l1.foldl visitItem
        ({g0 with curNs := n.name.name} : GState)) item1)).curNs
        = n.name.name := by
      simp [foldl_visitItem_curNs, visitItem_curNs]
    rw [foldl_visitItem_preserve l3 _ f n.name.name hl3]
    have hb := visitItem_binding _ item2 f n2 hmidpkg hb2
    rw [hmidns] at hb
    exact hb
  refine ⟨hmain, ?_⟩
  have hnsp : pathNs path = "" := by simp [pathNs, hns]
  have hpar : gget (visitNamespaceG g0 n).terms n.name.name path.name.name
      = some (⟨PackageSrc.Local, n2⟩ : DefId) := by
    rw [hname]
    exact hmain
  simp [resolve, hnsp, findLocal, hpar]

/-- Witness for C10: namespace `A` declares callable `F` twice (nodes 1 and
2); the table maps `F` to node 2 and an unqualified `F` in `A` resolves to
node 2 with no error. -/
theorem C10_witness :
    gget (visitNamespaceG ⟨[], [], [], PackageSrc.Local, ""⟩
        ⟨⟨50, ⟨0, 1⟩, "A"⟩,
          [⟨⟨none⟩, .callable ⟨⟨1, ⟨2, 3⟩, "F"⟩, Pat.elided⟩⟩,
           ⟨⟨none⟩, .callable ⟨⟨2, ⟨4, 5⟩, "F"⟩, Pat.elided⟩⟩]⟩).terms "A" "F"
      = some ⟨PackageSrc.Local, 2⟩ ∧
    resolve (visitNamespaceG ⟨[], [], [], PackageSrc.Local, ""⟩
        ⟨⟨50, ⟨0, 1⟩, "A"⟩,
          [⟨⟨none⟩, .callable ⟨⟨1, ⟨2, 3⟩, "F"⟩, Pat.elided⟩⟩,
           ⟨⟨none⟩, .callable ⟨⟨2, ⟨4, 5⟩, "F"⟩, Pat.elided⟩⟩]⟩).terms
      [] "A" [] ⟨100, ⟨10, 11⟩, none, ⟨101, ⟨10, 11⟩, "F"⟩⟩
      = .ok ⟨PackageSrc.Local, 2⟩ :=
  C10_same_namespace_duplicate_last_wins _ _ [] [] []
    ⟨⟨none⟩, .callable ⟨⟨1, ⟨2, 3⟩, "F"⟩, Pat.elided⟩⟩
    ⟨⟨none⟩, .callable ⟨⟨2, ⟨4, 5⟩, "F"⟩, Pat.elided⟩⟩
    "F" 1 2 [] ⟨100, ⟨10, 11⟩, none, ⟨101, ⟨10, 11⟩, "F"⟩⟩
    rfl rfl rfl rfl (by simp) rfl rfl

/-! ### Scope balance of the tree walk -/

theorem resolveTermSt_locals (s : RState) (p : Path) (s' : RState)
    (h : resolveTermSt s p = some s') : s'.locals = s.locals := by
  unfold resolveTermSt at h
  cases hr : resolve s.terms s.opens s.curNs s.locals p with
  | ok id =>
    rw [hr] at h
    simp only [Option.some.injEq] at h
    rw [← h]
  | err e =>
    rw [hr] at h
    simp only [Option.some.injEq] at h
    rw [← h]
  | panic =>
    rw [hr] at h
    simp at h

theorem resolveTySt_locals (s : RState) (p : Path) (s' : RState)
    (h : resolveTySt s p = some s') : s'.locals = s.locals := by
  unfold resolveTySt at h
  cases hr : resolve s.tys s.opens s.curNs [] p with
  | ok id =>
    rw [hr] at h
    simp only [Option.some.injEq] at h
    rw [← h]
  | err e =>
    rw [hr] at h
    simp only [Option.some.injEq] at h
    rw [← h]
  | panic =>
    rw [hr] at h
    simp at h

theorem popScope_locals (s : RState) (s' : RState)
    (h : popScope s = some s') : s'.locals = s.locals.tail := by
  unfold popScope at h
  cases hl : s.locals with
  | nil =>
    rw [hl] at h
    simp at h
  | cons env rest =>
    rw [hl] at h
    simp only [Option.some.injEq] at h
    rw [← h]
    rfl

theorem shape_cons {ls : LocalsStack} {env0 : Scope} {t : LocalsStack}
    (hlen : ls.length = (env0 :: t).length)
    (htail : ls.tail = (env0 :: t).tail) : ∃ env, ls = env :: t := by
  cases ls with
  | nil => simp at hlen
  | cons a b =>
    refine ⟨a, ?_⟩
    simp only [List.tail_cons] at htail
    rw [htail]

mutual

theorem visitTy_locals (s : RState) (t : Ty) (s' : RState)
    (h : visitTy s t = some s') : s'.locals = s.locals := by
  cases t with
  | pathT p =>
    simp only [visitTy] at h
    exact resolveTySt_locals s p s' h
  | tupleT ts =>
    simp only [visitTy] at h
    exact visitTys_locals s ts s' h
  | parenT t2 =>
    simp only [visitTy] at h
    exact visitTy_locals s t2 s' h
  | prim =>
    simp only [visitTy, Option.some.injEq] at h
    rw [← h]
  | hole =>
    simp only [visitTy, Option.some.injEq] at h
    rw [← h]

theorem visitTys_locals (s : RState) (ts : List Ty) (s' : RState)
    (h : visitTys s ts = some s') : s'.locals = s.locals := by
  cases ts with
  | nil =>
    simp only [visitTys, Option.some.injEq] at h
    rw [← h]
  | cons t rest =>
    simp only [visitTys] at h
    cases h1 : visitTy s t with
    | none =>
      rw [h1] at h
      simp at h
    | some s1 =>
      rw [h1] at h
      rw [visitTys_locals s1 rest s' h]
      exact visitTy_locals s t s1 h1

end

mutual

theorem visitPat_locals (s : RState) (p : Pat) (s' : RState)
    (h : visitPat s p = some s') : s'.locals = s.locals := by
  cases p with
  | bind name ty =>
    cases ty with
    | some t =>
      simp only [visitPat] at h
      exact visitTy_locals s t s' h
    | none =>
      simp only [visitPat, Option.some.injEq] at h
      rw [← h]
  | discard ty =>
    cases ty with
    | some t =>
      simp only [visitPat] at h
      exact visitTy_locals s t s' h
    | none =>
      simp only [visitPat, Option.some.injEq] at h
      rw [← h]
  | elided =>
    simp only [visitPat, Option.some.injEq] at h
    rw [← h]
  | parenP p2 =>
    simp only [visitPat] at h
    exact visitPat_locals s p2 s' h
  | tupleP ps =>
    simp only [visitPat] at h
    exact visitPats_locals s ps s' h

theorem visitPats_locals (s : RState) (ps : List Pat) (s' : RState)
    (h : visitPats s ps = some s') : s'.locals = s.locals := by
  cases ps with
  | nil =>
    simp only [visitPats, Option.some.injEq] at h
    rw [← h]
  | cons p rest =>
    simp only [visitPats] at h
    cases h1 : visitPat s p with
    | none =>
      rw [h1] at h
      simp at h
    | some s1 =>
      rw [h1] at h
      rw [visitPats_locals s1 rest s' h]
      exact visitPat_locals s p s1 h1

end

mutual

theorem bindPat_locals (s : RState) (p : Pat) (s' : RState)
    (h : bindPat s p = some s') :
    s'.locals.length = s.locals.length ∧ s'.locals.tail = s.locals.tail := by
  cases p with
  | bind name ty =>
    simp only [bindPat] at h
    cases hl : s.locals with
    | nil =>
      rw [hl] at h
      simp at h
    | cons env rest =>
      rw [hl] at h
      simp only [Option.some.injEq] at h
      rw [← h]
      simp
  | discard ty =>
    simp only [bindPat, Option.some.injEq] at h
    rw [← h]
    exact ⟨rfl, rfl⟩
  | elided =>
    simp only [bindPat, Option.some.injEq] at h
    rw [← h]
    exact ⟨rfl, rfl⟩
  | parenP p2 =>
    simp only [bindPat] at h
    exact bindPat_locals s p2 s' h
  | tupleP ps =>
    simp only [bindPat] at h
    exact bindPats_locals s ps s' h

theorem bindPats_locals (s : RState) (ps : List Pat) (s' : RState)
    (h : bindPats s ps = some s') :
    s'.locals.length = s.locals.length ∧ s'.locals.tail = s.locals.tail := by
  cases ps with
  | nil =>
    simp only [bindPats, Option.some.injEq] at h
    rw [← h]
    exact ⟨rfl, rfl⟩
  | cons p rest =>
    simp only [bindPats] at h
    cases h1 : bindPat s p with
    | none =>
      rw [h1] at h
      simp at h
    | some s1 =>
      rw [h1] at h
      obtain ⟨hl1, ht1⟩ := bindPat_locals s p s1 h1
      obtain ⟨hl2, ht2⟩ := bindPats_locals s1 rest s' h
      exact ⟨hl2.trans hl1, ht2.trans ht1⟩

end

mutual

theorem visitExpr_locals (s : RState) (e : Expr) (s' : RState)
    (h : visitExpr s e = some s') : s'.locals = s.locals := by
  cases e with
  | lit =>
    simp only [visitExpr, Option.some.injEq] at h
    rw [← h]
  | tuple es =>
    simp only [visitExpr] at h
    exact visitExprs_locals s es s' h
  | path p =>
    simp only [visitExpr] at h
    exact resolveTermSt_locals s p s' h
  | forE pat iter body =>
    simp only [visitExpr] at h
    split at h
    · simp at h
    · next s1 h1 =>
      split at h
      · simp at h
      · next s2 h2 =>
        split at h
        · simp at h
        · next s3 h3 =>
          have e1 := visitExpr_locals s iter s1 h1
          obtain ⟨l2, t2⟩ := bindPat_locals (pushScope s1) pat s2 h2
          obtain ⟨env2, he2⟩ := shape_cons l2 t2
          have e3 := visitBlockV_locals s2 body s3 h3
          have hp := popScope_locals s3 s' h
          rw [hp, e3, he2]
          simp [e1]
  | repeatE body cond fixup =>
    simp only [visitExpr] at h
    split at h
    · simp at h
    · next s1 h1 =>
      split at h
      · simp at h
      · next s2 h2 =>
        split at h
        · simp at h
        · next s3 h3 =>
          obtain ⟨l1, t1⟩ := walkBlockNS_locals (pushScope s) body s1 h1
          obtain ⟨env1, he1⟩ := shape_cons l1 t1
          have e2 := visitExpr_locals s1 cond s2 h2
          obtain ⟨l3, t3⟩ := walkOptBlockNS_locals s2 fixup s3 h3
          have hp := popScope_locals s3 s' h
          rw [hp, t3, e2, he1]
          simp
  | lambda input output =>
    simp only [visitExpr] at h
    split at h
    · simp at h
    · next s1 h1 =>
      split at h
      · simp at h
      · next s2 h2 =>
        obtain ⟨l1, t1⟩ := bindPat_locals (pushScope s) input s1 h1
        obtain ⟨env1, he1⟩ := shape_cons l1 t1
        have e2 := visitExpr_locals s1 output s2 h2
        have hp := popScope_locals s2 s' h
        rw [hp, e2, he1]
        simp
  | blockE b =>
    simp only [visitExpr] at h
    exact visitBlockV_locals s b s' h

theorem visitExprs_locals (s : RState) (es : List Expr) (s' : RState)
    (h : visitExprs s es = some s') : s'.locals = s.locals := by
  cases es with
  | nil =>
    simp only [visitExprs, Option.some.injEq] at h
    rw [← h]
  | cons e rest =>
    simp only [visitExprs] at h
    split at h
    · simp at h
    · next s1 h1 =>
      rw [visitExprs_locals s1 rest s' h]
      exact visitExpr_locals s e s1 h1

theorem visitQubitInit_locals (s : RState) (qi : QubitInit) (s' : RState)
    (h : visitQubitInit s qi = some s') : s'.locals = s.locals := by
  cases qi with
  | singleQI e =>
    simp only [visitQubitInit] at h
    exact visitExpr_locals s e s' h
  | tupleQI qis =>
    simp only [visitQubitInit] at h
    exact visitQubitInits_locals s qis s' h

theorem visitQubitInits_locals (s : RState) (qis : List QubitInit)
    (s' : RState) (h : visitQubitInits s qis = some s') :
    s'.locals = s.locals := by
  cases qis with
  | nil =>
    simp only [visitQubitInits, Option.some.injEq] at h
    rw [← h]
  | cons q rest =>
    simp only [visitQubitInits] at h
    split at h
    · simp at h
    · next s1 h1 =>
      rw [visitQubitInits_locals s1 rest s' h]
      exact visitQubitInit_locals s q s1 h1

theorem visitStmt_locals (s : RState) (st : Stmt) (s' : RState)
    (h : visitStmt s st = some s') :
    s'.locals.length = s.locals.length ∧ s'.locals.tail = s.locals.tail := by
  cases st with
  | empty =>
    simp only [visitStmt, Option.some.injEq] at h
    rw [← h]
    exact ⟨rfl, rfl⟩
  | exprS e =>
    simp only [visitStmt] at h
    rw [visitExpr_locals s e s' h]
    exact ⟨rfl, rfl⟩
  | semi e =>
    simp only [visitStmt] at h
    rw [visitExpr_locals s e s' h]
    exact ⟨rfl, rfl⟩
  | localS pat init =>
    simp only [visitStmt] at h
    split at h
    · simp at h
    · next s1 h1 =>
      split at h
      · simp at h
      · next s2 h2 =>
        have e1 := visitPat_locals s pat s1 h1
        have e2 := visitExpr_locals s1 init s2 h2
        obtain ⟨l3, t3⟩ := bindPat_locals s2 pat s' h
        rw [l3, t3, e2, e1]
        exact ⟨rfl, rfl⟩
  | qubit pat init blk =>
    simp only [visitStmt] at h
    split at h
    · simp at h
    · next s1 h1 =>
      split at h
      · simp at h
      · next s2 h2 =>
        have e1 := visitQubitInit_locals s init s1 h1
        obtain ⟨l2, t2⟩ := bindPat_locals s1 pat s2 h2
        obtain ⟨l3, t3⟩ := walkOptBlockNS_locals s2 blk s' h
        rw [l3, t3, l2, t2, e1]
        exact ⟨rfl, rfl⟩

theorem visitStmts_locals (s : RState) (sts : List Stmt) (s' : RState)
    (h : visitStmts s sts = some s') :
    s'.locals.length = s.locals.length ∧ s'.locals.tail = s.locals.tail := by
  cases sts with
  | nil =>
    simp only [visitStmts, Option.some.injEq] at h
    rw [← h]
    exact ⟨rfl, rfl⟩
  | cons st rest =>
    simp only [visitStmts] at h
    split at h
    · simp at h
    · next s1 h1 =>
      obtain ⟨la, ta⟩ := visitStmt_locals s st s1 h1
      obtain ⟨lb, tb⟩ := visitStmts_locals s1 rest s' h
      exact ⟨lb.trans la, tb.trans ta⟩

theorem walkBlockNS_locals (s : RState) (b : Block) (s' : RState)
    (h : walkBlockNS s b = some s') :
    s'.locals.length = s.locals.length ∧ s'.locals.tail = s.locals.tail := by
  cases b with
  | mk stmts =>
    simp only [walkBlockNS] at h
    exact visitStmts_locals s stmts s' h

theorem walkOptBlockNS_locals (s : RState) (ob : Option Block) (s' : RState)
    (h : walkOptBlockNS s ob = some s') :
    s'.locals.length = s.locals.length ∧ s'.locals.tail = s.locals.tail := by
  cases ob with
  | none =>
    simp only [walkOptBlockNS, Option.some.injEq] at h
    rw [← h]
    exact ⟨rfl, rfl⟩
  | some b =>
    simp only [walkOptBlockNS] at h
    exact walkBlockNS_locals s b s' h

theorem visitBlockV_locals (s : RState) (b : Block) (s' : RState)
    (h : visitBlockV s b = some s') : s'.locals = s.locals := by
  cases b with
  | mk stmts =>
    simp only [visitBlockV] at h
    split at h
    · simp at h
    · next s1 h1 =>
      obtain ⟨l1, t1⟩ := visitStmts_locals (pushScope s) stmts s1 h1
      obtain ⟨env1, he1⟩ := shape_cons l1 t1
      have hp := popScope_locals s1 s' h
      rw [hp, he1]
      simp

end

/-- **C6, amended.**  Every block reached through the block visitor
(`visit_block`) pushes a fresh scope on entry and pops it on exit, so the
scope stack is restored exactly and names bound inside such a block are not
visible after it; statements — including a qubit-allocation statement with
an attached block — preserve the stack's depth and all outer scopes, adding
bindings only to the innermost open scope.  (The unamended claim fails for
the block attached to a qubit-allocation statement, which `visit_stmt`
walks with `walk_block` instead of `visit_block` — no scope is pushed, so
its bindings leak; see `C6_counterexample`.) -/
theorem C6_scope_balance :
    (∀ (s : RState) (b : Block) (s' : RState),
      visitBlockV s b = some s' → s'.locals = s.locals) ∧
    (∀ (s : RState) (st : Stmt) (s' : RState),
      visitStmt s st = some s' →
      s'.locals.length = s.locals.length ∧
        s'.locals.tail = s.locals.tail) := by
  constructor
  · intro s b s' h
    exact visitBlockV_locals s b s' h
  · intro s st s' h
    exact visitStmt_locals s st s' h

/-- Counterexample to C6 as stated: in
`{ use q = Qubit() { let x = (); }  x }` the binding `x` (node 10) made
inside the block attached to the qubit-allocation statement IS visible to
the occurrence of `x` (path node 20) after that block ends: the walk
resolves node 20 to `x`'s local `DefId` because `visit_stmt` walks the
attached block without pushing a scope. -/
theorem C6_counterexample :
    (visitBlockV ⟨[], [], [], [], "NS", [], []⟩
        (Block.mk [Stmt.qubit (Pat.bind ⟨5, ⟨20, 21⟩, "q"⟩ none)
            (QubitInit.singleQI Expr.lit)
            (some (Block.mk [Stmt.localS
              (Pat.bind ⟨10, ⟨30, 31⟩, "x"⟩ none) Expr.lit])),
          Stmt.exprS (Expr.path
            ⟨20, ⟨60, 61⟩, none, ⟨21, ⟨60, 61⟩, "x"⟩⟩)])).bind
      (fun s => alookup s.resolutions 20)
      = some ⟨PackageSrc.Local, 10⟩ := by
  simp [visitBlockV, visitStmts, visitStmt, visitExpr, visitQubitInit,
    bindPat, walkOptBlockNS, walkBlockNS, visitPat, gget, single,
    resolveImplicitOpens, resolveExplicitOpens, resolveUnopened,
    resolveFinal, resolveRest, resolveTermSt, resolve, pushScope, popScope,
    findLocal, alookup, ainsert, pathNs, List.findSome?]

/-- Witness for the amended C6: walking a block containing a `let` binding
returns with the scope stack restored to its initial (empty) state. -/
theorem C6_witness :
    visitBlockV ⟨[], [], [], [], "NS", [], []⟩
        (Block.mk [Stmt.localS (Pat.bind ⟨10, ⟨30, 31⟩, "x"⟩ none) Expr.lit])
      = some ⟨[(10, ⟨PackageSrc.Local, 10⟩)], [], [], [], "NS", [], []⟩ ∧
    (⟨[(10, ⟨PackageSrc.Local, 10⟩)], [], [], [], "NS", [], []⟩
        : RState).locals
      = (⟨[], [], [], [], "NS", [], []⟩ : RState).locals := by
  have heval : visitBlockV ⟨[], [], [], [], "NS", [], []⟩
      (Block.mk [Stmt.localS (Pat.bind ⟨10, ⟨30, 31⟩, "x"⟩ none) Expr.lit])
      = some ⟨[(10, ⟨PackageSrc.Local, 10⟩)], [], [], [], "NS", [], []⟩ := by
    simp [visitBlockV, visitStmts, visitStmt, visitExpr, visitPat, bindPat,
      pushScope, popScope, ainsert]
  exact ⟨heval, C6_scope_balance.1 _ _ _ heval⟩

end QscResolve
